import Mathlib

/-!
Verification development for the bufferless `#[serde(flatten)]` deserializer
(`serde-bufferless`).  The Rust source is shallowly embedded: the decoding
source is a list of key/value pairs, `MapAccess`-style cursors become explicit
state-passing functions returning `Except` for decode errors, and the
`expect`/panic branch of `FusedAccess::next_value_seed` is modelled by an outer
`Option` layer (`none` = fatal contract violation, `some` = ordinary result).
-/

namespace SB

/-- Keys are matched against struct fields as raw byte slices (`&[u8]`);
bytes are modelled as lists of naturals. -/
abbrev Bytes := List Nat

/-- The shape of a decoded key, one constructor per `Visitor` method that
`FlattenKeySeed` implements in `src/private/flatten.rs`.  Payloads of the
aggregate shapes (`some`, `newtype_struct`, `seq`, `map`, `enum`) are opaque
(`V`) because the routing logic never inspects them; float payloads are the
opaque carried bits for the same reason. -/
inductive KeyData (V : Type) where
  | kBool (v : Bool)
  | kI8 (v : Int)
  | kI16 (v : Int)
  | kI32 (v : Int)
  | kI64 (v : Int)
  | kI128 (v : Int)
  | kU8 (v : Nat)
  | kU16 (v : Nat)
  | kU32 (v : Nat)
  | kU64 (v : Nat)
  | kU128 (v : Nat)
  | kF32 (v : Nat)
  | kF64 (v : Nat)
  | kChar (v : Char)
  | kStr (v : Bytes)
  | kString (v : Bytes)
  | kBorrowedStr (v : Bytes)
  | kBytes (v : Bytes)
  | kByteBuf (v : Bytes)
  | kBorrowedBytes (v : Bytes)
  | kNone
  | kUnit
  | kSome (v : V)
  | kNewtypeStruct (v : V)
  | kSeq (v : V)
  | kMap (v : V)
  | kEnum (v : V)
  deriving DecidableEq, Repr

/-- The `KeyCapture` trait of `src/private/flatten.rs`, with the `&mut self`
receiver made an explicit state `σ`.  `trySendKey` classifies a key rendered
as bytes and never fails; `sendValue` decodes and stores one value and may
fail with a decode error `E`. -/
structure KeyCapture (σ Token V E : Type) where
  trySendKey : σ → Bytes → Option Token × σ
  sendValue : σ → Token → V → Except E σ

/-- `FlattenKeySeedOutcome`: either the capture accepted the key (token kept
for the value send), or the key was deserialized by the inner seed. -/
inductive Outcome (Token β : Type) where
  | accepted (token : Token)
  | rejected (value : β)
  deriving DecidableEq, Repr

/-- `FlattenKeySeed::send_to_seed`: hand the decoded key to the inner
record's key seed; the capture state is untouched. -/
def sendToSeed {σ Token V E β : Type} (seed : KeyData V → Except E β) (s : σ)
    (k : KeyData V) : Except E (Outcome Token β × σ) :=
  (seed k).map fun b => (Outcome.rejected b, s)

/-- `FlattenKeySeed::send_to_capture`: offer the key bytes to the capture;
on a token the seed is kept unused, otherwise fall back to `send_to_seed`
with the original key. -/
def sendToCapture {σ Token V E β : Type} (cap : KeyCapture σ Token V E)
    (seed : KeyData V → Except E β) (s : σ) (k : KeyData V) (key : Bytes) :
    Except E (Outcome Token β × σ) :=
  match cap.trySendKey s key with
  | (some token, s') => Except.ok (Outcome.accepted token, s')
  | (none, s') => sendToSeed seed s' k

/-- The `Visitor` impl for `FlattenKeySeed`: textual and binary key shapes
are offered to the capture (as bytes), every other shape goes straight to
the inner seed. -/
def flattenKeySeedVisit {σ Token V E β : Type} (cap : KeyCapture σ Token V E)
    (seed : KeyData V → Except E β) (s : σ) :
    KeyData V → Except E (Outcome Token β × σ)
  | .kBool v => sendToSeed seed s (.kBool v)
  | .kI8 v => sendToSeed seed s (.kI8 v)
  | .kI16 v => sendToSeed seed s (.kI16 v)
  | .kI32 v => sendToSeed seed s (.kI32 v)
  | .kI64 v => sendToSeed seed s (.kI64 v)
  | .kI128 v => sendToSeed seed s (.kI128 v)
  | .kU8 v => sendToSeed seed s (.kU8 v)
  | .kU16 v => sendToSeed seed s (.kU16 v)
  | .kU32 v => sendToSeed seed s (.kU32 v)
  | .kU64 v => sendToSeed seed s (.kU64 v)
  | .kU128 v => sendToSeed seed s (.kU128 v)
  | .kF32 v => sendToSeed seed s (.kF32 v)
  | .kF64 v => sendToSeed seed s (.kF64 v)
  | .kChar v => sendToSeed seed s (.kChar v)
  | .kStr v => sendToCapture cap seed s (.kStr v) v
  | .kString v => sendToCapture cap seed s (.kString v) v
  | .kBorrowedStr v => sendToCapture cap seed s (.kBorrowedStr v) v
  | .kBytes v => sendToCapture cap seed s (.kBytes v) v
  | .kByteBuf v => sendToCapture cap seed s (.kByteBuf v) v
  | .kBorrowedBytes v => sendToCapture cap seed s (.kBorrowedBytes v) v
  | .kNone => sendToSeed seed s .kNone
  | .kUnit => sendToSeed seed s .kUnit
  | .kSome v => sendToSeed seed s (.kSome v)
  | .kNewtypeStruct v => sendToSeed seed s (.kNewtypeStruct v)
  | .kSeq v => sendToSeed seed s (.kSeq v)
  | .kMap v => sendToSeed seed s (.kMap v)
  | .kEnum v => sendToSeed seed s (.kEnum v)

/-- Which key shapes are rendered as a byte sequence and offered to the
capture: exactly the str/string and bytes/byte-buffer shapes. -/
def keyBytes {V : Type} : KeyData V → Option Bytes
  | .kStr v => some v
  | .kString v => some v
  | .kBorrowedStr v => some v
  | .kBytes v => some v
  | .kByteBuf v => some v
  | .kBorrowedBytes v => some v
  | _ => none

/-- Classification of one key: offer its byte rendering to the capture when
it has one, otherwise reject without consulting the capture. -/
def classify {σ Token V E : Type} (cap : KeyCapture σ Token V E) (s : σ)
    (k : KeyData V) : Option Token × σ :=
  match keyBytes k with
  | none => (none, s)
  | some bs => cap.trySendKey s bs

/-- The visitor dispatch of `FlattenKeySeed` agrees with `classify`:
accepted keys yield the token, rejected keys go to the inner seed. -/
theorem flattenKeySeedVisit_eq {σ Token V E β : Type} (cap : KeyCapture σ Token V E)
    (seed : KeyData V → Except E β) (s : σ) (k : KeyData V) :
    flattenKeySeedVisit cap seed s k =
      match classify cap s k with
      | (some t, s') => Except.ok (Outcome.accepted t, s')
      | (none, s') => sendToSeed seed s' k := by
  cases k <;>
    simp only [flattenKeySeedVisit, classify, keyBytes, sendToCapture]

/-- A concrete map source over a list of entries, in the style of serde's
own value `MapDeserializer`: `pending` holds the value of the key most
recently produced and not yet consumed. -/
structure ListAccess (V : Type) where
  pending : Option V
  rest : List (KeyData V × V)
  deriving DecidableEq, Repr

/-- `next_key_seed` of the list source: pop the next entry, apply the key
seed to the key, leave the value pending.  The source itself never fails;
errors come from the seed. -/
def ListAccess.nextKeySeed {V E κ : Type} (f : KeyData V → Except E κ)
    (a : ListAccess V) : Except E (Option (κ × ListAccess V)) :=
  match a.rest with
  | [] => Except.ok none
  | (k, v) :: rest => (f k).map fun x => some (x, ⟨some v, rest⟩)

/-- `next_value_seed` of the list source: consume the pending value.  The
outer `Option` is the fatal layer: `none` models the panic on requesting a
value when no key was produced. -/
def ListAccess.nextValueSeed {V E ω : Type} (g : V → Except E ω)
    (a : ListAccess V) : Option (Except E (ω × ListAccess V)) :=
  match a.pending with
  | none => none
  | some v => some ((g v).map fun w => (w, ⟨none, a.rest⟩))

/-- `FusedAccess` from `src/private.rs`: `access` is `Some` while live,
`None` once an advance call returned end-of-data. -/
structure FusedAccess (A : Type) where
  access : Option A
  deriving DecidableEq, Repr

/-- `FusedAccess::new`. -/
def FusedAccess.new {A : Type} (a : A) : FusedAccess A := ⟨some a⟩

/-- `FusedAccess::next_item`: delegate an advance operation to the wrapped
cursor when live, recording exhaustion when it reports end-of-data;
once exhausted, report end-of-data without touching the cursor. -/
def FusedAccess.nextItem {A T E : Type} (fa : FusedAccess A)
    (op : A → Except E (Option (T × A))) : Except E (Option T × FusedAccess A) :=
  match fa.access with
  | none => Except.ok (none, ⟨none⟩)
  | some access =>
    (op access).map fun
      | none => (none, ⟨none⟩)
      | some (item, a') => (some item, ⟨some a'⟩)

/-- `FusedAccess::next_key_seed` (MapAccess impl), via `next_item`. -/
def FusedAccess.nextKeySeedF {A κ E : Type} (fa : FusedAccess A)
    (op : A → Except E (Option (κ × A))) : Except E (Option κ × FusedAccess A) :=
  fa.nextItem op

/-- `FusedAccess::next_element_seed` (SeqAccess impl), via `next_item`. -/
def FusedAccess.nextElementSeedF {A τ E : Type} (fa : FusedAccess A)
    (op : A → Except E (Option (τ × A))) : Except E (Option τ × FusedAccess A) :=
  fa.nextItem op

/-- `FusedAccess::next_entry_seed` (MapAccess impl), via `next_item`. -/
def FusedAccess.nextEntrySeedF {A κ ω E : Type} (fa : FusedAccess A)
    (op : A → Except E (Option ((κ × ω) × A))) :
    Except E (Option (κ × ω) × FusedAccess A) :=
  fa.nextItem op

/-- `FusedAccess::next_value_seed`: `self.access.as_mut().expect(..)` — the
`expect` on an exhausted wrapper is the fatal `none` of the outer `Option`. -/
def FusedAccess.nextValueSeedF {A ω E : Type} (fa : FusedAccess A)
    (op : A → Option (Except E (ω × A))) : Option (Except E (ω × FusedAccess A)) :=
  match fa.access with
  | none => none
  | some a => (op a).map fun r => r.map fun wa => (wa.1, ⟨some wa.2⟩)

/-- Length of the un-consumed tail of a fused list source: the termination
measure of the routing loop. -/
def fusedLen {V : Type} : FusedAccess (ListAccess V) → Nat
  | ⟨none⟩ => 0
  | ⟨some a⟩ => a.rest.length

theorem nextKeySeedF_len {V κ E : Type} {fa fa' : FusedAccess (ListAccess V)}
    {f : KeyData V → Except E κ} {x : κ}
    (h : fa.nextKeySeedF (ListAccess.nextKeySeed f) = Except.ok (some x, fa')) :
    fusedLen fa' + 1 = fusedLen fa := by
  obtain ⟨_ | ⟨p, rest⟩⟩ := fa
  · simp [FusedAccess.nextKeySeedF, FusedAccess.nextItem] at h
  · cases rest with
    | nil => simp [FusedAccess.nextKeySeedF, FusedAccess.nextItem,
        ListAccess.nextKeySeed, Except.map] at h
    | cons e rest' =>
      obtain ⟨k, v⟩ := e
      cases hf : f k with
      | error err => simp [FusedAccess.nextKeySeedF, FusedAccess.nextItem,
          ListAccess.nextKeySeed, hf, Except.map] at h
      | ok y =>
        simp only [FusedAccess.nextKeySeedF, FusedAccess.nextItem,
          ListAccess.nextKeySeed, hf, Except.map, Except.ok.injEq,
          Prod.mk.injEq] at h
        obtain ⟨-, h2⟩ := h
        subst h2
        simp [fusedLen]

theorem nextValueSeedF_len {V ω E : Type} {fa fa' : FusedAccess (ListAccess V)}
    {g : V → Except E ω} {w : ω}
    (h : fa.nextValueSeedF (ListAccess.nextValueSeed g) = some (Except.ok (w, fa'))) :
    fusedLen fa' = fusedLen fa := by
  obtain ⟨_ | ⟨p, rest⟩⟩ := fa
  · simp [FusedAccess.nextValueSeedF] at h
  · cases p with
    | none => simp [FusedAccess.nextValueSeedF, ListAccess.nextValueSeed] at h
    | some v =>
      cases hg : g v with
      | error err => simp [FusedAccess.nextValueSeedF, ListAccess.nextValueSeed,
          hg, Except.map] at h
      | ok y =>
        simp [FusedAccess.nextValueSeedF, ListAccess.nextValueSeed, hg,
          Except.map] at h
        obtain ⟨-, h2⟩ := h
        subst h2
        simp [fusedLen]

/-- `FlattenMapAccess::next_key_seed`: the routing loop.  Get a key from the
fused source classified through `FlattenKeySeed`; on end-of-data report it,
on a rejected key return it to the inner visitor, on an accepted key consume
the matching value into the capture (`FlattenValueSeed`) and continue.
The outer `Option` propagates the fatal layer of `next_value_seed`. -/
def flattenNextKey {σ Token V E β : Type} (cap : KeyCapture σ Token V E)
    (seed : KeyData V → Except E β) (map : FusedAccess (ListAccess V)) (s : σ) :
    Option (Except E (Option β × FusedAccess (ListAccess V) × σ)) :=
  match h1 : map.nextKeySeedF (ListAccess.nextKeySeed (flattenKeySeedVisit cap seed s)) with
  | .error e => some (.error e)
  | .ok (none, map') => some (.ok (none, map', s))
  | .ok (some (.rejected b, s'), map') => some (.ok (some b, map', s'))
  | .ok (some (.accepted t, s'), map') =>
    match h2 : map'.nextValueSeedF (ListAccess.nextValueSeed (fun v => cap.sendValue s' t v)) with
    | none => none
    | some (.error e) => some (.error e)
    | some (.ok (s'', map'')) => flattenNextKey cap seed map'' s''
termination_by fusedLen map
decreasing_by
  have a1 := nextKeySeedF_len h1
  have a2 := nextValueSeedF_len h2
  omega

theorem flattenNextKey_error {σ Token V E β : Type} {cap : KeyCapture σ Token V E}
    {seed : KeyData V → Except E β} {map : FusedAccess (ListAccess V)} {s : σ} {e : E}
    (h1 : map.nextKeySeedF (ListAccess.nextKeySeed (flattenKeySeedVisit cap seed s)) =
      Except.error e) :
    flattenNextKey cap seed map s = some (Except.error e) := by
  rw [flattenNextKey.eq_def]
  split <;> simp_all

theorem flattenNextKey_none {σ Token V E β : Type} {cap : KeyCapture σ Token V E}
    {seed : KeyData V → Except E β} {map map' : FusedAccess (ListAccess V)} {s : σ}
    (h1 : map.nextKeySeedF (ListAccess.nextKeySeed (flattenKeySeedVisit cap seed s)) =
      Except.ok (none, map')) :
    flattenNextKey cap seed map s = some (Except.ok (none, map', s)) := by
  rw [flattenNextKey.eq_def]
  split <;> simp_all

theorem flattenNextKey_rejected {σ Token V E β : Type} {cap : KeyCapture σ Token V E}
    {seed : KeyData V → Except E β} {map map' : FusedAccess (ListAccess V)} {s s' : σ}
    {b : β}
    (h1 : map.nextKeySeedF (ListAccess.nextKeySeed (flattenKeySeedVisit cap seed s)) =
      Except.ok (some (Outcome.rejected b, s'), map')) :
    flattenNextKey cap seed map s = some (Except.ok (some b, map', s')) := by
  rw [flattenNextKey.eq_def]
  split <;> simp_all

theorem flattenNextKey_accepted_fatal {σ Token V E β : Type} {cap : KeyCapture σ Token V E}
    {seed : KeyData V → Except E β} {map map' : FusedAccess (ListAccess V)} {s s' : σ}
    {t : Token}
    (h1 : map.nextKeySeedF (ListAccess.nextKeySeed (flattenKeySeedVisit cap seed s)) =
      Except.ok (some (Outcome.accepted t, s'), map'))
    (h2 : map'.nextValueSeedF (ListAccess.nextValueSeed fun v => cap.sendValue s' t v) =
      none) :
    flattenNextKey cap seed map s = none := by
  rw [flattenNextKey.eq_def]
  split <;> simp_all
  split <;> simp_all

theorem flattenNextKey_accepted_error {σ Token V E β : Type} {cap : KeyCapture σ Token V E}
    {seed : KeyData V → Except E β} {map map' : FusedAccess (ListAccess V)} {s s' : σ}
    {t : Token} {e : E}
    (h1 : map.nextKeySeedF (ListAccess.nextKeySeed (flattenKeySeedVisit cap seed s)) =
      Except.ok (some (Outcome.accepted t, s'), map'))
    (h2 : map'.nextValueSeedF (ListAccess.nextValueSeed fun v => cap.sendValue s' t v) =
      some (Except.error e)) :
    flattenNextKey cap seed map s = some (Except.error e) := by
  rw [flattenNextKey.eq_def]
  split <;> simp_all
  split <;> simp_all

theorem flattenNextKey_accepted_step {σ Token V E β : Type} {cap : KeyCapture σ Token V E}
    {seed : KeyData V → Except E β} {map map' map'' : FusedAccess (ListAccess V)}
    {s s' s'' : σ} {t : Token}
    (h1 : map.nextKeySeedF (ListAccess.nextKeySeed (flattenKeySeedVisit cap seed s)) =
      Except.ok (some (Outcome.accepted t, s'), map'))
    (h2 : map'.nextValueSeedF (ListAccess.nextValueSeed fun v => cap.sendValue s' t v) =
      some (Except.ok (s'', map''))) :
    flattenNextKey cap seed map s = flattenNextKey cap seed map'' s'' := by
  rw [flattenNextKey.eq_def]
  split <;> simp_all
  split <;> simp_all

theorem nextKeySeedF_some_shape {V κ E : Type} {fa fa' : FusedAccess (ListAccess V)}
    {f : KeyData V → Except E κ} {x : κ}
    (h : fa.nextKeySeedF (ListAccess.nextKeySeed f) = Except.ok (some x, fa')) :
    ∃ v rest, fa' = ⟨some ⟨some v, rest⟩⟩ := by
  obtain ⟨_ | ⟨p, rest⟩⟩ := fa
  · simp [FusedAccess.nextKeySeedF, FusedAccess.nextItem] at h
  · cases rest with
    | nil => simp [FusedAccess.nextKeySeedF, FusedAccess.nextItem,
        ListAccess.nextKeySeed, Except.map] at h
    | cons e rest' =>
      obtain ⟨k, v⟩ := e
      cases hf : f k with
      | error err => simp [FusedAccess.nextKeySeedF, FusedAccess.nextItem,
          ListAccess.nextKeySeed, hf, Except.map] at h
      | ok y =>
        simp only [FusedAccess.nextKeySeedF, FusedAccess.nextItem,
          ListAccess.nextKeySeed, hf, Except.map, Except.ok.injEq,
          Prod.mk.injEq] at h
        exact ⟨v, rest', h.2.symm⟩

theorem nextValueSeedF_pending_isSome {V ω E : Type} {v : V}
    {rest : List (KeyData V × V)} {g : V → Except E ω} :
    ((⟨some ⟨some v, rest⟩⟩ : FusedAccess (ListAccess V)).nextValueSeedF
      (ListAccess.nextValueSeed g)).isSome := by
  cases hg : g v <;>
    simp [FusedAccess.nextValueSeedF, ListAccess.nextValueSeed, hg, Except.map]

/-- When the routing loop hands a key to the inner visitor, the value of
that key is still pending in the wrapped source. -/
theorem flattenNextKey_some_pending {σ Token V E β : Type} {cap : KeyCapture σ Token V E}
    {seed : KeyData V → Except E β} (map : FusedAccess (ListAccess V)) (s : σ)
    {b : β} {map' : FusedAccess (ListAccess V)} {s' : σ}
    (h : flattenNextKey cap seed map s = some (Except.ok (some b, map', s'))) :
    ∃ v rest, map' = ⟨some ⟨some v, rest⟩⟩ := by
  induction map, s using flattenNextKey.induct cap seed with
  | case1 map s e h1 => rw [flattenNextKey_error h1] at h; simp at h
  | case2 map s map2 h1 => rw [flattenNextKey_none h1] at h; simp at h
  | case3 map s b2 s2 map2 h1 =>
    rw [flattenNextKey_rejected h1] at h
    simp only [Option.some.injEq, Except.ok.injEq, Prod.mk.injEq] at h
    obtain ⟨-, h2, -⟩ := h
    subst h2
    exact nextKeySeedF_some_shape h1
  | case4 map s t s2 map2 h1 h2 =>
    rw [flattenNextKey_accepted_fatal h1 h2] at h; simp at h
  | case5 map s t s2 map2 h1 e h2 =>
    rw [flattenNextKey_accepted_error h1 h2] at h; simp at h
  | case6 map s t s2 map2 h1 s3 map3 h2 ih =>
    rw [flattenNextKey_accepted_step h1 h2] at h
    exact ih h

/-- The routing loop consumes at least one source entry whenever it produces
a key. -/
theorem flattenNextKey_some_lt {σ Token V E β : Type} {cap : KeyCapture σ Token V E}
    {seed : KeyData V → Except E β} (map : FusedAccess (ListAccess V)) (s : σ)
    {b : β} {map' : FusedAccess (ListAccess V)} {s' : σ}
    (h : flattenNextKey cap seed map s = some (Except.ok (some b, map', s'))) :
    fusedLen map' < fusedLen map := by
  induction map, s using flattenNextKey.induct cap seed with
  | case1 map s e h1 => rw [flattenNextKey_error h1] at h; simp at h
  | case2 map s map2 h1 => rw [flattenNextKey_none h1] at h; simp at h
  | case3 map s b2 s2 map2 h1 =>
    rw [flattenNextKey_rejected h1] at h
    simp only [Option.some.injEq, Except.ok.injEq, Prod.mk.injEq] at h
    obtain ⟨-, h2, -⟩ := h
    subst h2
    have := nextKeySeedF_len h1
    omega
  | case4 map s t s2 map2 h1 h2 =>
    rw [flattenNextKey_accepted_fatal h1 h2] at h; simp at h
  | case5 map s t s2 map2 h1 e h2 =>
    rw [flattenNextKey_accepted_error h1 h2] at h; simp at h
  | case6 map s t s2 map2 h1 s3 map3 h2 ih =>
    rw [flattenNextKey_accepted_step h1 h2] at h
    have l1 := nextKeySeedF_len h1
    have l2 := nextValueSeedF_len h2
    have := ih h
    omega

/-- The fatal branch of the routing loop is unreachable: getting a key never
trips the value-before-key contract violation. -/
theorem flattenNextKey_isSome {σ Token V E β : Type} (cap : KeyCapture σ Token V E)
    (seed : KeyData V → Except E β) (map : FusedAccess (ListAccess V)) (s : σ) :
    (flattenNextKey cap seed map s).isSome := by
  induction map, s using flattenNextKey.induct cap seed with
  | case1 map s e h1 => rw [flattenNextKey_error h1]; rfl
  | case2 map s map2 h1 => rw [flattenNextKey_none h1]; rfl
  | case3 map s b2 s2 map2 h1 => rw [flattenNextKey_rejected h1]; rfl
  | case4 map s t s2 map2 h1 h2 =>
    obtain ⟨v, rest, hshape⟩ := nextKeySeedF_some_shape h1
    subst hshape
    have := @nextValueSeedF_pending_isSome V σ E v rest (fun v => cap.sendValue s2 t v)
    rw [h2] at this
    simp at this
  | case5 map s t s2 map2 h1 e h2 => rw [flattenNextKey_accepted_error h1 h2]; rfl
  | case6 map s t s2 map2 h1 s3 map3 h2 ih =>
    rw [flattenNextKey_accepted_step h1 h2]
    exact ih

/-- The inner record's visitor, modelled as reading up to `n` entries in
strict key/value alternation through `FlattenMapAccess` (`next_key_seed`
then `next_value_seed`, the latter delegating to the wrapped source),
collecting the entries it observes; `n` is where it stops early. -/
def readEntries {σ Token V E β γ : Type} (cap : KeyCapture σ Token V E)
    (seed : KeyData V → Except E β) (vseed : V → Except E γ) :
    Nat → FusedAccess (ListAccess V) → σ →
    Option (Except E (List (β × γ) × FusedAccess (ListAccess V) × σ))
  | 0, map, s => some (Except.ok ([], map, s))
  | n+1, map, s =>
    match flattenNextKey cap seed map s with
    | none => none
    | some (.error e) => some (.error e)
    | some (.ok (none, map', s')) => some (Except.ok ([], map', s'))
    | some (.ok (some b, map', s')) =>
      match map'.nextValueSeedF (ListAccess.nextValueSeed vseed) with
      | none => none
      | some (.error e) => some (.error e)
      | some (.ok (v, map'')) =>
        (readEntries cap seed vseed n map'' s').map
          (Except.map fun r => ((b, v) :: r.1, r.2))

/-- The drain step of `FlattenVisitor::visit_map`:
`IgnoredAny::deserialize(MapAccessDeserializer::new(&mut map))`, i.e. the
default `next_entry_seed` loop — `next_key_seed` then `next_value_seed` —
with ignoring seeds, run until end-of-data. -/
def drainMap {σ Token V E : Type} (cap : KeyCapture σ Token V E)
    (map : FusedAccess (ListAccess V)) (s : σ) : Option (Except E σ) :=
  match h1 : flattenNextKey cap (fun _ => Except.ok ()) map s with
  | none => none
  | some (.error e) => some (.error e)
  | some (.ok (none, _, s')) => some (Except.ok s')
  | some (.ok (some _, map', s')) =>
    match h2 : map'.nextValueSeedF (ListAccess.nextValueSeed (fun _ => Except.ok ())) with
    | none => none
    | some (.error e) => some (.error e)
    | some (.ok (_, map'')) => drainMap cap map'' s'
termination_by fusedLen map
decreasing_by
  have l1 := flattenNextKey_some_lt map s h1
  have l2 := nextValueSeedF_len h2
  omega

/-- `FlattenVisitor::visit_map`: wrap the source in `FusedAccess`, let the
inner visitor read entries through the routing map access, then drain the
remainder so leftovers still reach the capture.  The observed entry list
instruments what the inner visitor saw. -/
def flattenVisitMap {σ Token V E β γ : Type} (cap : KeyCapture σ Token V E)
    (seed : KeyData V → Except E β) (vseed : V → Except E γ) (n : Nat)
    (l : List (KeyData V × V)) (s : σ) : Option (Except E (List (β × γ) × σ)) :=
  match readEntries cap seed vseed n (FusedAccess.new ⟨none, l⟩) s with
  | none => none
  | some (.error e) => some (.error e)
  | some (.ok (es, map', s')) =>
    match drainMap cap map' s' with
    | none => none
    | some (.error e) => some (.error e)
    | some (.ok s'') => some (Except.ok (es, s''))

theorem drainMap_flattenError {σ Token V E : Type} {cap : KeyCapture σ Token V E}
    {map : FusedAccess (ListAccess V)} {s : σ} {e : E}
    (h1 : flattenNextKey cap (fun _ => Except.ok ()) map s = some (Except.error e)) :
    drainMap cap map s = some (Except.error e) := by
  rw [drainMap.eq_def]
  split <;> simp_all

theorem drainMap_flattenNone {σ Token V E : Type} {cap : KeyCapture σ Token V E}
    {map map2 : FusedAccess (ListAccess V)} {s s' : σ}
    (h1 : flattenNextKey cap (fun _ => Except.ok ()) map s =
      some (Except.ok (none, map2, s'))) :
    drainMap cap map s = some (Except.ok s') := by
  rw [drainMap.eq_def]
  split <;> simp_all

theorem drainMap_valueError {σ Token V E : Type} {cap : KeyCapture σ Token V E}
    {map map' : FusedAccess (ListAccess V)} {s s' : σ} {b : Unit} {e : E}
    (h1 : flattenNextKey cap (fun _ => Except.ok ()) map s =
      some (Except.ok (some b, map', s')))
    (h2 : map'.nextValueSeedF (ListAccess.nextValueSeed (fun _ => Except.ok ())) =
      some (Except.error e)) :
    drainMap cap map s = some (Except.error e) := by
  rw [drainMap.eq_def]
  split <;> simp_all
  split <;> simp_all

theorem drainMap_step {σ Token V E : Type} {cap : KeyCapture σ Token V E}
    {map map' map'' : FusedAccess (ListAccess V)} {s s' : σ} {b u : Unit}
    (h1 : flattenNextKey cap (fun _ => Except.ok ()) map s =
      some (Except.ok (some b, map', s')))
    (h2 : map'.nextValueSeedF
        (ListAccess.nextValueSeed (fun _ => (Except.ok () : Except E Unit))) =
      some (Except.ok (u, map''))) :
    drainMap cap map s = drainMap cap map'' s' := by
  rw [drainMap.eq_def]
  split <;> simp_all
  split <;> simp_all

/-- Spec-side reference: classify entries in source order, storing each
claimed entry's value through `sendValue`, until the first rejected entry,
which is returned together with the remaining entries. -/
def firstRejected {σ Token V E : Type} (cap : KeyCapture σ Token V E) :
    List (KeyData V × V) → σ →
    Except E (Option ((KeyData V × V) × List (KeyData V × V)) × σ)
  | [], s => Except.ok (none, s)
  | (k, v) :: rest, s =>
    match classify cap s k with
    | (some t, s') => (cap.sendValue s' t v).bind fun s'' => firstRejected cap rest s''
    | (none, s') => Except.ok (some ((k, v), rest), s')

/-- Spec-side reference router (from the spec's partition/ordering words):
one pass over the record, claimed entries stored into the capture, rejected
entries collected in source order. -/
def routeRef {σ Token V E : Type} (cap : KeyCapture σ Token V E) :
    List (KeyData V × V) → σ → Except E (List (KeyData V × V) × σ)
  | [], s => Except.ok ([], s)
  | (k, v) :: rest, s =>
    match classify cap s k with
    | (some t, s') => (cap.sendValue s' t v).bind fun s'' => routeRef cap rest s''
    | (none, s') => (routeRef cap rest s').map fun r => ((k, v) :: r.1, r.2)

/-- Spec-side reference router also returning the claimed entries, for the
partition property. -/
def routeRefFull {σ Token V E : Type} (cap : KeyCapture σ Token V E) :
    List (KeyData V × V) → σ →
    Except E (List (KeyData V × V) × List (KeyData V × V) × σ)
  | [], s => Except.ok ([], [], s)
  | (k, v) :: rest, s =>
    match classify cap s k with
    | (some t, s') =>
      (cap.sendValue s' t v).bind fun s'' =>
        (routeRefFull cap rest s'').map fun r => ((k, v) :: r.1, r.2)
    | (none, s') =>
      (routeRefFull cap rest s').map fun r => (r.1, (k, v) :: r.2.1, r.2.2)

/-- One routing-loop call equals one `firstRejected` step of the reference
router (for an inner key seed that cannot fail). -/
theorem flattenNextKey_eq_firstRejected {σ Token V E β : Type}
    (cap : KeyCapture σ Token V E) (f : KeyData V → β) :
    ∀ (l : List (KeyData V × V)) (s : σ),
    flattenNextKey cap (fun k => Except.ok (f k)) ⟨some ⟨none, l⟩⟩ s =
      some (match firstRejected cap l s with
        | .error e => .error e
        | .ok (none, s') => Except.ok (none, (⟨none⟩ : FusedAccess (ListAccess V)), s')
        | .ok (some ((k, v), rest), s') =>
          Except.ok (some (f k), (⟨some ⟨some v, rest⟩⟩ : FusedAccess (ListAccess V)), s'))
  | [], s => by
    have h1 : (⟨some ⟨none, []⟩⟩ : FusedAccess (ListAccess V)).nextKeySeedF
        (ListAccess.nextKeySeed
          (flattenKeySeedVisit cap (fun k => Except.ok (f k)) s)) =
        Except.ok (none, ⟨none⟩) := by
      simp [FusedAccess.nextKeySeedF, FusedAccess.nextItem, ListAccess.nextKeySeed,
        Except.map]
    rw [flattenNextKey_none h1]
    simp [firstRejected]
  | (k, v) :: rest, s => by
    rcases hc : classify cap s k with ⟨tok | tok, s'⟩
    · have hv : flattenKeySeedVisit cap (fun k => Except.ok (f k)) s k =
          Except.ok (Outcome.rejected (f k), s') := by
        rw [flattenKeySeedVisit_eq, hc]
        simp [sendToSeed, Except.map]
      have h1 : (⟨some ⟨none, (k, v) :: rest⟩⟩ : FusedAccess (ListAccess V)).nextKeySeedF
          (ListAccess.nextKeySeed
            (flattenKeySeedVisit cap (fun k => Except.ok (f k)) s)) =
          Except.ok (some (Outcome.rejected (f k), s'), ⟨some ⟨some v, rest⟩⟩) := by
        simp [FusedAccess.nextKeySeedF, FusedAccess.nextItem, ListAccess.nextKeySeed,
          hv, Except.map]
      rw [flattenNextKey_rejected h1]
      simp [firstRejected, hc]
    · have hv : flattenKeySeedVisit cap (fun k => Except.ok (f k)) s k =
          Except.ok (Outcome.accepted tok, s') := by
        rw [flattenKeySeedVisit_eq, hc]
      have h1 : (⟨some ⟨none, (k, v) :: rest⟩⟩ : FusedAccess (ListAccess V)).nextKeySeedF
          (ListAccess.nextKeySeed
            (flattenKeySeedVisit cap (fun k => Except.ok (f k)) s)) =
          Except.ok (some (Outcome.accepted tok, s'), ⟨some ⟨some v, rest⟩⟩) := by
        simp [FusedAccess.nextKeySeedF, FusedAccess.nextItem, ListAccess.nextKeySeed,
          hv, Except.map]
      cases hs : cap.sendValue s' tok v with
      | error e =>
        have h2 : (⟨some ⟨some v, rest⟩⟩ : FusedAccess (ListAccess V)).nextValueSeedF
            (ListAccess.nextValueSeed fun w => cap.sendValue s' tok w) =
            some (Except.error e) := by
          simp [FusedAccess.nextValueSeedF, ListAccess.nextValueSeed, hs, Except.map]
        rw [flattenNextKey_accepted_error h1 h2]
        simp [firstRejected, hc, hs, Except.bind]
      | ok s'' =>
        have h2 : (⟨some ⟨some v, rest⟩⟩ : FusedAccess (ListAccess V)).nextValueSeedF
            (ListAccess.nextValueSeed fun w => cap.sendValue s' tok w) =
            some (Except.ok (s'', ⟨some ⟨none, rest⟩⟩)) := by
          simp [FusedAccess.nextValueSeedF, ListAccess.nextValueSeed, hs, Except.map]
        rw [flattenNextKey_accepted_step h1 h2]
        rw [flattenNextKey_eq_firstRejected cap f rest s'']
        simp [firstRejected, hc, hs, Except.bind]

theorem firstRejected_rest_length {σ Token V E : Type} {cap : KeyCapture σ Token V E} :
    ∀ {l : List (KeyData V × V)} {s : σ} {kv : KeyData V × V}
      {rest : List (KeyData V × V)} {s' : σ},
    firstRejected cap l s = Except.ok (some (kv, rest), s') → rest.length < l.length := by
  intro l
  induction l with
  | nil => intro s kv rest s' h; simp [firstRejected] at h
  | cons e l ih =>
    intro s kv rest s' h
    obtain ⟨k, v⟩ := e
    rcases hc : classify cap s k with ⟨_ | tok, s0⟩
    · simp only [firstRejected, hc, Except.ok.injEq, Prod.mk.injEq,
        Option.some.injEq] at h
      obtain ⟨⟨-, h2⟩, -⟩ := h
      subst h2
      simp
    · simp only [firstRejected, hc] at h
      cases hs : cap.sendValue s0 tok v with
      | error err => rw [hs] at h; simp [Except.bind] at h
      | ok s1 =>
        rw [hs] at h
        simp only [Except.bind] at h
        have := ih h
        simp only [List.length_cons]
        omega

/-- `routeRef` decomposes along the first rejected entry. -/
theorem routeRef_eq_firstRejected {σ Token V E : Type} (cap : KeyCapture σ Token V E) :
    ∀ (l : List (KeyData V × V)) (s : σ),
    routeRef cap l s =
      match firstRejected cap l s with
      | .error e => .error e
      | .ok (none, s') => Except.ok ([], s')
      | .ok (some ((k, v), rest), s') =>
        (routeRef cap rest s').map fun r => ((k, v) :: r.1, r.2) := by
  intro l
  induction l with
  | nil => intro s; simp [firstRejected, routeRef]
  | cons e l ih =>
    intro s
    obtain ⟨k, v⟩ := e
    rcases hc : classify cap s k with ⟨_ | tok, s0⟩
    · simp only [routeRef, firstRejected, hc]
    · simp only [routeRef, firstRejected, hc]
      cases hs : cap.sendValue s0 tok v with
      | error err => simp [hs, Except.bind]
      | ok s1 => simp only [hs, Except.bind]; exact ih s1

theorem drainMap_eq_aux {σ Token V E : Type} (cap : KeyCapture σ Token V E) :
    ∀ (n : Nat) (l : List (KeyData V × V)), l.length ≤ n → ∀ (s : σ),
    drainMap cap ⟨some ⟨none, l⟩⟩ s = some ((routeRef cap l s).map fun r => r.2) := by
  intro n
  induction n with
  | zero =>
    intro l hl s
    obtain rfl : l = [] := List.length_eq_zero.mp (Nat.le_zero.mp hl)
    have h1 : flattenNextKey cap (fun _ => Except.ok ())
        (⟨some ⟨none, []⟩⟩ : FusedAccess (ListAccess V)) s =
        some (Except.ok (none, ⟨none⟩, s)) :=
      flattenNextKey_eq_firstRejected cap (fun _ => ()) [] s
    rw [drainMap_flattenNone h1, routeRef]
    rfl
  | succ n ih =>
    intro l hl s
    rcases hfr : firstRejected cap l s with e | ⟨_ | ⟨⟨k, v⟩, rest⟩, s'⟩
    · have h1 := flattenNextKey_eq_firstRejected cap (fun _ => ()) l s
      rw [hfr] at h1
      have h1' : flattenNextKey cap (fun _ => Except.ok ())
          (⟨some ⟨none, l⟩⟩ : FusedAccess (ListAccess V)) s =
          some (Except.error e) := h1
      have hroute : routeRef cap l s = Except.error e := by
        rw [routeRef_eq_firstRejected, hfr]
      rw [drainMap_flattenError h1', hroute]
      rfl
    · have h1 := flattenNextKey_eq_firstRejected cap (fun _ => ()) l s
      rw [hfr] at h1
      have h1' : flattenNextKey cap (fun _ => Except.ok ())
          (⟨some ⟨none, l⟩⟩ : FusedAccess (ListAccess V)) s =
          some (Except.ok (none, ⟨none⟩, s')) := h1
      have hroute : routeRef cap l s = Except.ok ([], s') := by
        rw [routeRef_eq_firstRejected, hfr]
      rw [drainMap_flattenNone h1', hroute]
      rfl
    · have h1 := flattenNextKey_eq_firstRejected cap (fun _ => ()) l s
      rw [hfr] at h1
      have h1' : flattenNextKey cap (fun _ => Except.ok ())
          (⟨some ⟨none, l⟩⟩ : FusedAccess (ListAccess V)) s =
          some (Except.ok (some (), ⟨some ⟨some v, rest⟩⟩, s')) := h1
      have h2 : (⟨some ⟨some v, rest⟩⟩ : FusedAccess (ListAccess V)).nextValueSeedF
          (ListAccess.nextValueSeed (fun _ => (Except.ok () : Except E Unit))) =
          some (Except.ok ((), ⟨some ⟨none, rest⟩⟩)) := by
        simp [FusedAccess.nextValueSeedF, ListAccess.nextValueSeed, Except.map]
      rw [drainMap_step h1' h2]
      have hrest : rest.length ≤ n := by
        have := firstRejected_rest_length hfr
        omega
      rw [ih rest hrest s']
      have hroute : routeRef cap l s =
          (routeRef cap rest s').map fun r => ((k, v) :: r.1, r.2) := by
        rw [routeRef_eq_firstRejected, hfr]
      rw [hroute]
      cases routeRef cap rest s' with
      | error e => rfl
      | ok r => rfl

/-- The drain step routes every remaining entry exactly like the reference
router, keeping only the final capture state. -/
theorem drainMap_eq {σ Token V E : Type} (cap : KeyCapture σ Token V E)
    (l : List (KeyData V × V)) (s : σ) :
    drainMap cap ⟨some ⟨none, l⟩⟩ s = some ((routeRef cap l s).map fun r => r.2) :=
  drainMap_eq_aux cap l.length l le_rfl s

/-- Spec-side: the first `n` rejected entries, the remainder of the source
after them (`none` when the source was exhausted first), and the capture
state reached. -/
def readRef {σ Token V E : Type} (cap : KeyCapture σ Token V E) :
    Nat → List (KeyData V × V) → σ →
    Except E (List (KeyData V × V) × Option (List (KeyData V × V)) × σ)
  | 0, l, s => Except.ok ([], some l, s)
  | n+1, l, s =>
    match firstRejected cap l s with
    | .error e => .error e
    | .ok (none, s') => Except.ok ([], none, s')
    | .ok (some (kv, rest), s') =>
      (readRef cap n rest s').map fun r => (kv :: r.1, r.2)

/-- View the remainder tracked by `readRef` as a fused cursor state. -/
def toFused {V : Type} : Option (List (KeyData V × V)) → FusedAccess (ListAccess V)
  | none => ⟨none⟩
  | some rem => ⟨some ⟨none, rem⟩⟩

theorem readEntries_eq {σ Token V E β γ : Type} (cap : KeyCapture σ Token V E)
    (f : KeyData V → β) (g : V → γ) :
    ∀ (n : Nat) (l : List (KeyData V × V)) (s : σ),
    readEntries cap (fun k => Except.ok (f k)) (fun v => Except.ok (g v)) n
        (⟨some ⟨none, l⟩⟩ : FusedAccess (ListAccess V)) s =
      some ((readRef cap n l s).map fun r =>
        (r.1.map fun kv => (f kv.1, g kv.2), toFused r.2.1, r.2.2)) := by
  intro n
  induction n with
  | zero => intro l s; rfl
  | succ n ih =>
    intro l s
    rcases hfr : firstRejected cap l s with e | ⟨_ | ⟨⟨k, v⟩, rest⟩, s'⟩
    · have h1 := flattenNextKey_eq_firstRejected cap f l s
      rw [hfr] at h1
      have h1' : flattenNextKey cap (fun k => Except.ok (f k))
          (⟨some ⟨none, l⟩⟩ : FusedAccess (ListAccess V)) s =
          some (Except.error e) := h1
      simp only [readEntries, h1']
      rw [readRef, hfr]
      rfl
    · have h1 := flattenNextKey_eq_firstRejected cap f l s
      rw [hfr] at h1
      have h1' : flattenNextKey cap (fun k => Except.ok (f k))
          (⟨some ⟨none, l⟩⟩ : FusedAccess (ListAccess V)) s =
          some (Except.ok (none, ⟨none⟩, s')) := h1
      simp only [readEntries, h1']
      rw [readRef, hfr]
      rfl
    · have h1 := flattenNextKey_eq_firstRejected cap f l s
      rw [hfr] at h1
      have h1' : flattenNextKey cap (fun k => Except.ok (f k))
          (⟨some ⟨none, l⟩⟩ : FusedAccess (ListAccess V)) s =
          some (Except.ok (some (f k), ⟨some ⟨some v, rest⟩⟩, s')) := h1
      have h2 : (⟨some ⟨some v, rest⟩⟩ : FusedAccess (ListAccess V)).nextValueSeedF
          (ListAccess.nextValueSeed (fun v => (Except.ok (g v) : Except E γ))) =
          some (Except.ok (g v, ⟨some ⟨none, rest⟩⟩)) := by
        simp [FusedAccess.nextValueSeedF, ListAccess.nextValueSeed, Except.map]
      simp only [readEntries, h1', h2]
      rw [ih rest s']
      have hstep : readRef cap (n+1) l s =
          (readRef cap n rest s').map fun r => ((k, v) :: r.1, r.2) := by
        rw [readRef, hfr]
      rw [hstep]
      cases readRef cap n rest s' with
      | error e => rfl
      | ok r => rfl

theorem readRef_length {σ Token V E : Type} {cap : KeyCapture σ Token V E} :
    ∀ {n : Nat} {l : List (KeyData V × V)} {s : σ}
      {es : List (KeyData V × V)} {rem : Option (List (KeyData V × V))} {s' : σ},
    readRef cap n l s = Except.ok (es, rem, s') →
      es.length ≤ n ∧ (rem.isSome → es.length = n) := by
  intro n
  induction n with
  | zero =>
    intro l s es rem s' h
    simp only [readRef, Except.ok.injEq, Prod.mk.injEq] at h
    obtain ⟨h1, -, -⟩ := h
    subst h1
    simp
  | succ n ih =>
    intro l s es rem s' h
    rcases hfr : firstRejected cap l s with e | ⟨_ | ⟨⟨k, v⟩, rest⟩, s0⟩ <;>
      rw [readRef, hfr] at h
    · simp at h
    · simp only [Except.ok.injEq, Prod.mk.injEq] at h
      obtain ⟨h1, h2, -⟩ := h
      subst h1
      subst h2
      simp
    · have h' : (readRef cap n rest s0).map (fun r => ((k, v) :: r.1, r.2)) =
          Except.ok (es, rem, s') := h
      cases hrr : readRef cap n rest s0 with
      | error e => rw [hrr] at h'; simp [Except.map] at h'
      | ok r =>
        rw [hrr] at h'
        obtain ⟨es0, rem0, s1⟩ := r
        simp only [Except.map, Except.ok.injEq, Prod.mk.injEq] at h'
        obtain ⟨h1, h2, -⟩ := h'
        subst h1
        subst h2
        obtain ⟨ih1, ih2⟩ := ih hrr
        constructor
        · simp; omega
        · intro hsome
          simp [ih2 hsome]

theorem routeRef_eq_readRef {σ Token V E : Type} (cap : KeyCapture σ Token V E) :
    ∀ (n : Nat) (l : List (KeyData V × V)) (s : σ),
    routeRef cap l s =
      match readRef cap n l s with
      | .error e => .error e
      | .ok (es, none, s') => Except.ok (es, s')
      | .ok (es, some rem, s') => (routeRef cap rem s').map fun r => (es ++ r.1, r.2) := by
  intro n
  induction n with
  | zero =>
    intro l s
    simp only [readRef]
    cases routeRef cap l s with
    | error e => rfl
    | ok r => simp [Except.map]
  | succ n ih =>
    intro l s
    rcases hfr : firstRejected cap l s with e | ⟨_ | ⟨⟨k, v⟩, rest⟩, s'⟩
    · have hstep : readRef cap (n+1) l s = Except.error e := by
        rw [readRef, hfr]
      have hL : routeRef cap l s = Except.error e := by
        rw [routeRef_eq_firstRejected, hfr]
      rw [hstep, hL]
    · have hstep : readRef cap (n+1) l s = Except.ok ([], none, s') := by
        rw [readRef, hfr]
      have hL : routeRef cap l s = Except.ok ([], s') := by
        rw [routeRef_eq_firstRejected, hfr]
      rw [hstep, hL]
    · have hstep : readRef cap (n+1) l s =
          (readRef cap n rest s').map fun r => ((k, v) :: r.1, r.2) := by
        rw [readRef, hfr]
      have hL : routeRef cap l s =
          (routeRef cap rest s').map fun r => ((k, v) :: r.1, r.2) := by
        rw [routeRef_eq_firstRejected, hfr]
      have hI := ih rest s'
      cases hrr : readRef cap n rest s' with
      | error e =>
        rw [hrr] at hI
        have hI' : routeRef cap rest s' = Except.error e := hI
        rw [hstep, hrr, hL, hI']
        rfl
      | ok r =>
        obtain ⟨es0, rem0, s1⟩ := r
        rw [hrr] at hI
        rw [hstep, hrr, hL]
        cases rem0 with
        | none =>
          have hI' : routeRef cap rest s' = Except.ok (es0, s1) := hI
          rw [hI']
          rfl
        | some rem =>
          have hI' : routeRef cap rest s' =
              (routeRef cap rem s1).map fun r => (es0 ++ r.1, r.2) := hI
          rw [hI']
          show ((routeRef cap rem s1).map fun r => (es0 ++ r.1, r.2)).map
              (fun r => ((k, v) :: r.1, r.2)) =
            (routeRef cap rem s1).map fun r => (((k, v) :: es0) ++ r.1, r.2)
          cases routeRef cap rem s1 with
          | error e => rfl
          | ok r2 => simp [Except.map]

/-- Main equivalence: a full decode through `FlattenVisitor::visit_map`,
with the inner visitor stopping after `n` entries, is the reference
router: the visitor observes the first `n` rejected entries (through its
seeds) and the final capture state is that of routing every entry. -/
theorem flattenVisitMap_eq {σ Token V E β γ : Type} (cap : KeyCapture σ Token V E)
    (f : KeyData V → β) (g : V → γ) (n : Nat) (l : List (KeyData V × V)) (s : σ) :
    flattenVisitMap cap (fun k => Except.ok (f k)) (fun v => Except.ok (g v)) n l s =
      some ((routeRef cap l s).map fun r =>
        ((r.1.take n).map fun kv => (f kv.1, g kv.2), r.2)) := by
  have hread := readEntries_eq cap f g n l s
  rcases hrr : readRef cap n l s with e | ⟨es, rem, s'⟩
  · rw [hrr] at hread
    have hread' : readEntries cap (fun k => Except.ok (f k)) (fun v => Except.ok (g v)) n
        (⟨some ⟨none, l⟩⟩ : FusedAccess (ListAccess V)) s = some (Except.error e) := hread
    have hroute : routeRef cap l s = Except.error e := by
      rw [routeRef_eq_readRef cap n, hrr]
    simp only [flattenVisitMap, FusedAccess.new, hread', hroute]
    rfl
  · rw [hrr] at hread
    cases rem with
    | none =>
      have hread' : readEntries cap (fun k => Except.ok (f k)) (fun v => Except.ok (g v)) n
          (⟨some ⟨none, l⟩⟩ : FusedAccess (ListAccess V)) s =
          some (Except.ok (es.map fun kv => (f kv.1, g kv.2), ⟨none⟩, s')) := hread
      have hdrain : drainMap cap (⟨none⟩ : FusedAccess (ListAccess V)) s' =
          some (Except.ok s') := by
        have h1 : flattenNextKey cap (fun _ => Except.ok ())
            (⟨none⟩ : FusedAccess (ListAccess V)) s' =
            some (Except.ok (none, ⟨none⟩, s')) := by
          apply flattenNextKey_none
          rfl
        exact drainMap_flattenNone h1
      have hroute : routeRef cap l s = Except.ok (es, s') := by
        rw [routeRef_eq_readRef cap n, hrr]
      have htake : es.take n = es :=
        List.take_of_length_le (readRef_length hrr).1
      simp only [flattenVisitMap, FusedAccess.new, hread', hdrain, hroute]
      simp [Except.map, htake]
    | some rem =>
      have hread' : readEntries cap (fun k => Except.ok (f k)) (fun v => Except.ok (g v)) n
          (⟨some ⟨none, l⟩⟩ : FusedAccess (ListAccess V)) s =
          some (Except.ok (es.map fun kv => (f kv.1, g kv.2), ⟨some ⟨none, rem⟩⟩, s')) :=
        hread
      have hlen : es.length = n := (readRef_length hrr).2 rfl
      have hroute := routeRef_eq_readRef cap n l s
      rw [hrr] at hroute
      have hroute' : routeRef cap l s =
          (routeRef cap rem s').map fun r => (es ++ r.1, r.2) := hroute
      rcases hrem : routeRef cap rem s' with e | r2
      · rw [hrem] at hroute'
        have hroute'' : routeRef cap l s = Except.error e := hroute'
        simp only [flattenVisitMap, FusedAccess.new, hread', drainMap_eq, hrem, hroute'']
        rfl
      · rw [hrem] at hroute'
        have hroute'' : routeRef cap l s = Except.ok (es ++ r2.1, r2.2) := hroute'
        have htake : (es ++ r2.1).take n = es := List.take_left' hlen
        simp only [flattenVisitMap, FusedAccess.new, hread', drainMap_eq, hrem, hroute'']
        simp [Except.map, htake]

theorem routeRef_eq_routeRefFull {σ Token V E : Type} (cap : KeyCapture σ Token V E) :
    ∀ (l : List (KeyData V × V)) (s : σ),
    routeRef cap l s = (routeRefFull cap l s).map fun r => (r.2.1, r.2.2) := by
  intro l
  induction l with
  | nil => intro s; rfl
  | cons e l ih =>
    intro s
    obtain ⟨k, v⟩ := e
    rcases hc : classify cap s k with ⟨_ | tok, s0⟩
    · simp only [routeRef, routeRefFull, hc]
      rw [ih s0]
      cases routeRefFull cap l s0 with
      | error e => rfl
      | ok r => rfl
    · simp only [routeRef, routeRefFull, hc]
      cases hs : cap.sendValue s0 tok v with
      | error err => rfl
      | ok s1 =>
        simp only [Except.bind]
        rw [ih s1]
        cases routeRefFull cap l s1 with
        | error e => rfl
        | ok r => rfl

/-- The partition property of the reference router: claimed and rejected
entries are complementary sub-lists of the source. -/
theorem routeRefFull_partition {σ Token V E : Type} (cap : KeyCapture σ Token V E) :
    ∀ (l : List (KeyData V × V)) (s : σ) {c r : List (KeyData V × V)} {sf : σ},
    routeRefFull cap l s = Except.ok (c, r, sf) →
      c.Sublist l ∧ r.Sublist l ∧ (c ++ r).Perm l := by
  intro l
  induction l with
  | nil =>
    intro s c r sf h
    simp only [routeRefFull, Except.ok.injEq, Prod.mk.injEq] at h
    obtain ⟨h1, h2, -⟩ := h
    subst h1
    subst h2
    simp
  | cons e l ih =>
    intro s c r sf h
    obtain ⟨k, v⟩ := e
    rcases hc : classify cap s k with ⟨_ | tok, s0⟩
    · simp only [routeRefFull, hc] at h
      cases hfull : routeRefFull cap l s0 with
      | error err => rw [hfull] at h; simp [Except.map] at h
      | ok r0 =>
        rw [hfull] at h
        obtain ⟨c', r', sf'⟩ := r0
        simp only [Except.map, Except.ok.injEq, Prod.mk.injEq] at h
        obtain ⟨h1, h2, -⟩ := h
        subst h1
        subst h2
        obtain ⟨ihc, ihr, ihp⟩ := ih s0 hfull
        exact ⟨ihc.cons (k, v), ihr.cons₂ (k, v),
          (List.perm_middle).trans (ihp.cons (k, v))⟩
    · simp only [routeRefFull, hc] at h
      cases hs : cap.sendValue s0 tok v with
      | error err => rw [hs] at h; simp [Except.bind] at h
      | ok s1 =>
        rw [hs] at h
        simp only [Except.bind] at h
        cases hfull : routeRefFull cap l s1 with
        | error err => rw [hfull] at h; simp [Except.map] at h
        | ok r0 =>
          rw [hfull] at h
          obtain ⟨c', r', sf'⟩ := r0
          simp only [Except.map, Except.ok.injEq, Prod.mk.injEq] at h
          obtain ⟨h1, h2, -⟩ := h
          subst h1
          subst h2
          obtain ⟨ihc, ihr, ihp⟩ := ih s1 hfull
          exact ⟨ihc.cons₂ (k, v), ihr.cons (k, v), ihp.cons (k, v)⟩

theorem routeRef_ok_length {σ Token V E : Type} {cap : KeyCapture σ Token V E} :
    ∀ {l : List (KeyData V × V)} {s : σ} {r : List (KeyData V × V)} {sf : σ},
    routeRef cap l s = Except.ok (r, sf) → r.length ≤ l.length := by
  intro l
  induction l with
  | nil =>
    intro s r sf h
    simp only [routeRef, Except.ok.injEq, Prod.mk.injEq] at h
    obtain ⟨h1, -⟩ := h
    subst h1
    simp
  | cons e l ih =>
    intro s r sf h
    obtain ⟨k, v⟩ := e
    rcases hc : classify cap s k with ⟨_ | tok, s0⟩
    · simp only [routeRef, hc] at h
      cases hr : routeRef cap l s0 with
      | error err => rw [hr] at h; simp [Except.map] at h
      | ok r0 =>
        rw [hr] at h
        simp only [Except.map, Except.ok.injEq, Prod.mk.injEq] at h
        obtain ⟨h1, -⟩ := h
        subst h1
        have := ih hr
        simp
        omega
    · simp only [routeRef, hc] at h
      cases hs : cap.sendValue s0 tok v with
      | error err => rw [hs] at h; simp [Except.bind] at h
      | ok s1 =>
        rw [hs] at h
        simp only [Except.bind] at h
        have := ih h
        simp
        omega

theorem readEntries_isSome {σ Token V E β γ : Type} (cap : KeyCapture σ Token V E)
    (seed : KeyData V → Except E β) (vseed : V → Except E γ) :
    ∀ (n : Nat) (map : FusedAccess (ListAccess V)) (s : σ),
    (readEntries cap seed vseed n map s).isSome := by
  intro n
  induction n with
  | zero => intro map s; simp [readEntries]
  | succ n ih =>
    intro map s
    cases hk : flattenNextKey cap seed map s with
    | none =>
      have := flattenNextKey_isSome cap seed map s
      rw [hk] at this
      simp at this
    | some r =>
      cases r with
      | error e => simp [readEntries, hk]
      | ok r =>
        obtain ⟨b, map', s'⟩ := r
        cases b with
        | none => simp [readEntries, hk]
        | some b =>
          obtain ⟨v, rest, hshape⟩ := flattenNextKey_some_pending map s hk
          subst hshape
          cases hg : vseed v with
          | error e =>
            simp [readEntries, hk, FusedAccess.nextValueSeedF,
              ListAccess.nextValueSeed, hg, Except.map]
          | ok w =>
            simp only [readEntries, hk, FusedAccess.nextValueSeedF,
              ListAccess.nextValueSeed, hg, Except.map]
            have hrec := ih ⟨some ⟨none, rest⟩⟩ s'
            cases hre : readEntries cap seed vseed n ⟨some ⟨none, rest⟩⟩ s' with
            | none => rw [hre] at hrec; simp at hrec
            | some r2 => simp [hre]

theorem drainMap_isSome {σ Token V E : Type} (cap : KeyCapture σ Token V E) :
    ∀ (map : FusedAccess (ListAccess V)) (s : σ), (drainMap cap map s).isSome := by
  intro map s
  induction map, s using drainMap.induct cap with
  | case1 map s h1 =>
    have := flattenNextKey_isSome cap (fun _ => Except.ok ()) map s
    rw [h1] at this
    simp at this
  | case2 map s e h1 => rw [drainMap_flattenError h1]; rfl
  | case3 map s map2 s' h1 => rw [drainMap_flattenNone h1]; rfl
  | case4 map s b map' s' h1 h2 =>
    obtain ⟨v, rest, hshape⟩ := flattenNextKey_some_pending map s h1
    subst hshape
    have := @nextValueSeedF_pending_isSome V Unit E v rest (fun _ => Except.ok ())
    rw [h2] at this
    simp at this
  | case5 map s b map' s' h1 e h2 => rw [drainMap_valueError h1 h2]; rfl
  | case6 map s b map' s' h1 u map'' h2 ih =>
    rw [drainMap_step h1 h2]
    exact ih

/-- The routing adapter's usage discipline keeps the fatal branches
unreachable: a whole `visit_map` run never trips them. -/
theorem flattenVisitMap_isSome {σ Token V E β γ : Type} (cap : KeyCapture σ Token V E)
    (seed : KeyData V → Except E β) (vseed : V → Except E γ) (n : Nat)
    (l : List (KeyData V × V)) (s : σ) :
    (flattenVisitMap cap seed vseed n l s).isSome := by
  have hre := readEntries_isSome cap seed vseed n (FusedAccess.new ⟨none, l⟩) s
  cases hr : readEntries cap seed vseed n (FusedAccess.new ⟨none, l⟩) s with
  | none => rw [hr] at hre; simp at hre
  | some r =>
    cases r with
    | error e => simp [flattenVisitMap, hr]
    | ok r =>
      obtain ⟨es, map', s'⟩ := r
      have hd := drainMap_isSome cap map' s'
      cases hdr : drainMap cap map' s' with
      | none => rw [hdr] at hd; simp at hd
      | some d =>
        cases d with
        | error e => simp [flattenVisitMap, hr, hdr]
        | ok s'' => simp [flattenVisitMap, hr, hdr]

/-- Events observed at the capture boundary. -/
inductive CapEvent (Token V : Type) where
  | claimed (t : Token) (key : Bytes)
  | keyRejected
  | sentValue (t : Token) (v : V)
  deriving DecidableEq, Repr

/-- Wrap a capture so that every protocol interaction is logged, leaving its
behaviour otherwise unchanged. -/
def logCapture {σ Token V E : Type} (cap : KeyCapture σ Token V E) :
    KeyCapture (σ × List (CapEvent Token V)) Token V E where
  trySendKey := fun sl bs =>
    match cap.trySendKey sl.1 bs with
    | (some t, s') => (some t, (s', sl.2 ++ [CapEvent.claimed t bs]))
    | (none, s') => (none, (s', sl.2 ++ [CapEvent.keyRejected]))
  sendValue := fun sl t v =>
    (cap.sendValue sl.1 t v).map fun s' => (s', sl.2 ++ [CapEvent.sentValue t v])

/-- The temporal shape of a legal capture interaction: any number of
rejected classifications, and every claim immediately followed by exactly
one value send carrying the same token. -/
inductive WellPaired {Token V : Type} : List (CapEvent Token V) → Prop where
  | nil : WellPaired []
  | rejected (l : List (CapEvent Token V)) : WellPaired l →
      WellPaired (CapEvent.keyRejected :: l)
  | claim (t : Token) (key : Bytes) (v : V) (l : List (CapEvent Token V)) :
      WellPaired l →
      WellPaired (CapEvent.claimed t key :: CapEvent.sentValue t v :: l)

/-- The values carried by the `sentValue` events of a log, in order. -/
def sentValues {Token V : Type} : List (CapEvent Token V) → List V
  | [] => []
  | CapEvent.sentValue _ v :: l => v :: sentValues l
  | CapEvent.claimed _ _ :: l => sentValues l
  | CapEvent.keyRejected :: l => sentValues l

theorem routeRefFull_logCapture {σ Token V E : Type} (cap : KeyCapture σ Token V E) :
    ∀ (l : List (KeyData V × V)) (s : σ) (log0 : List (CapEvent Token V))
      {c r : List (KeyData V × V)} {sf : σ} {logf : List (CapEvent Token V)},
    routeRefFull (logCapture cap) l (s, log0) = Except.ok (c, r, (sf, logf)) →
      ∃ ev, logf = log0 ++ ev ∧ WellPaired ev ∧ sentValues ev = c.map (fun e => e.2) := by
  intro l
  induction l with
  | nil =>
    intro s log0 c r sf logf h
    simp only [routeRefFull, Except.ok.injEq, Prod.mk.injEq] at h
    obtain ⟨h1, h2, -, h4⟩ := h
    subst h1
    subst h2
    subst h4
    exact ⟨[], by simp, WellPaired.nil, rfl⟩
  | cons e l ih =>
    intro s log0 c r sf logf h
    obtain ⟨k, v⟩ := e
    cases hb : keyBytes k with
    | none =>
      have hc : classify (logCapture cap) (s, log0) k = (none, (s, log0)) := by
        simp [classify, hb]
      simp only [routeRefFull, hc] at h
      cases hfull : routeRefFull (logCapture cap) l (s, log0) with
      | error err => rw [hfull] at h; simp [Except.map] at h
      | ok r0 =>
        rw [hfull] at h
        obtain ⟨c', r', sf', logf'⟩ := r0
        simp only [Except.map, Except.ok.injEq, Prod.mk.injEq] at h
        obtain ⟨h1, -, -, h4⟩ := h
        subst h1
        subst h4
        exact ih s log0 hfull
    | some bs =>
      rcases ht : cap.trySendKey s bs with ⟨_ | tok, s0⟩
      · have hc : classify (logCapture cap) (s, log0) k =
            (none, (s0, log0 ++ [CapEvent.keyRejected])) := by
          simp [classify, hb, logCapture, ht]
        simp only [routeRefFull, hc] at h
        cases hfull : routeRefFull (logCapture cap) l (s0, log0 ++ [CapEvent.keyRejected]) with
        | error err => rw [hfull] at h; simp [Except.map] at h
        | ok r0 =>
          rw [hfull] at h
          obtain ⟨c', r', sf', logf'⟩ := r0
          simp only [Except.map, Except.ok.injEq, Prod.mk.injEq] at h
          obtain ⟨h1, -, -, h4⟩ := h
          subst h1
          subst h4
          obtain ⟨ev, hev, hwp, hsv⟩ := ih s0 (log0 ++ [CapEvent.keyRejected]) hfull
          refine ⟨CapEvent.keyRejected :: ev, ?_, WellPaired.rejected ev hwp, hsv⟩
          rw [hev]
          simp
      · have hc : classify (logCapture cap) (s, log0) k =
            (some tok, (s0, log0 ++ [CapEvent.claimed tok bs])) := by
          simp [classify, hb, logCapture, ht]
        simp only [routeRefFull, hc] at h
        cases hs : cap.sendValue s0 tok v with
        | error err =>
          have hsend : (logCapture cap).sendValue
              (s0, log0 ++ [CapEvent.claimed tok bs]) tok v = Except.error err := by
            simp [logCapture, hs, Except.map]
          rw [hsend] at h
          simp [Except.bind] at h
        | ok s1 =>
          have hsend : (logCapture cap).sendValue
              (s0, log0 ++ [CapEvent.claimed tok bs]) tok v =
              Except.ok (s1, (log0 ++ [CapEvent.claimed tok bs]) ++
                [CapEvent.sentValue tok v]) := by
            simp [logCapture, hs, Except.map]
          rw [hsend] at h
          simp only [Except.bind] at h
          cases hfull : routeRefFull (logCapture cap) l
              (s1, (log0 ++ [CapEvent.claimed tok bs]) ++ [CapEvent.sentValue tok v]) with
          | error err => rw [hfull] at h; simp [Except.map] at h
          | ok r0 =>
            rw [hfull] at h
            obtain ⟨c', r', sf', logf'⟩ := r0
            simp only [Except.map, Except.ok.injEq, Prod.mk.injEq] at h
            obtain ⟨h1, -, -, h4⟩ := h
            subst h1
            subst h4
            obtain ⟨ev, hev, hwp, hsv⟩ := ih s1
              ((log0 ++ [CapEvent.claimed tok bs]) ++ [CapEvent.sentValue tok v]) hfull
            refine ⟨CapEvent.claimed tok bs :: CapEvent.sentValue tok v :: ev, ?_,
              WellPaired.claim tok bs v ev hwp, ?_⟩
            · rw [hev]
              simp
            · simp [sentValues, hsv]

/-- The decode entry points of serde's `Deserializer` trait. -/
inductive Shape where
  | sAny
  | sBool
  | sI8
  | sI16
  | sI32
  | sI64
  | sI128
  | sU8
  | sU16
  | sU32
  | sU64
  | sU128
  | sF32
  | sF64
  | sChar
  | sStr
  | sString
  | sBytes
  | sByteBuf
  | sOption
  | sUnit
  | sUnitStruct
  | sNewtypeStruct
  | sSeq
  | sTuple
  | sTupleStruct
  | sMap
  | sStruct
  | sEnum
  | sIdentifier
  | sIgnoredAny
  deriving DecidableEq, Repr

/-- What `FlattenDeserializer` asks of its wrapped source per decode
request: `deserialize_any` calls `deserialize_map` with the routing
`FlattenVisitor`, `forward_to_deserialize_any!` sends the listed shapes
there too, and `deserialize_ignored_any` forwards directly to the source's
`deserialize_ignored_any`. -/
inductive FlattenCall where
  | mapWithFlattenVisitor
  | ignoredAnyDirect
  deriving DecidableEq, Repr

/-- The method table of `FlattenDeserializer` (`src/private/flatten.rs`,
`deserialize_any`, the `forward_to_deserialize_any!` block, and
`deserialize_ignored_any`). -/
def flattenDeserializerCall : Shape → FlattenCall
  | .sAny => .mapWithFlattenVisitor
  | .sBool => .mapWithFlattenVisitor
  | .sI8 => .mapWithFlattenVisitor
  | .sI16 => .mapWithFlattenVisitor
  | .sI32 => .mapWithFlattenVisitor
  | .sI64 => .mapWithFlattenVisitor
  | .sI128 => .mapWithFlattenVisitor
  | .sU8 => .mapWithFlattenVisitor
  | .sU16 => .mapWithFlattenVisitor
  | .sU32 => .mapWithFlattenVisitor
  | .sU64 => .mapWithFlattenVisitor
  | .sU128 => .mapWithFlattenVisitor
  | .sF32 => .mapWithFlattenVisitor
  | .sF64 => .mapWithFlattenVisitor
  | .sChar => .mapWithFlattenVisitor
  | .sStr => .mapWithFlattenVisitor
  | .sString => .mapWithFlattenVisitor
  | .sBytes => .mapWithFlattenVisitor
  | .sByteBuf => .mapWithFlattenVisitor
  | .sOption => .mapWithFlattenVisitor
  | .sUnit => .mapWithFlattenVisitor
  | .sUnitStruct => .mapWithFlattenVisitor
  | .sNewtypeStruct => .mapWithFlattenVisitor
  | .sSeq => .mapWithFlattenVisitor
  | .sTuple => .mapWithFlattenVisitor
  | .sTupleStruct => .mapWithFlattenVisitor
  | .sMap => .mapWithFlattenVisitor
  | .sStruct => .mapWithFlattenVisitor
  | .sEnum => .mapWithFlattenVisitor
  | .sIdentifier => .mapWithFlattenVisitor
  | .sIgnoredAny => .ignoredAnyDirect

/-- The visitor callbacks the forwarding deserializers can invoke. -/
structure FwdVisitor (V W E : Type) where
  visitSome : V → Except E W
  visitNewtypeStruct : V → Except E W
  visitEnum : V → Except E W
  visitByteBuf : Bytes → Except E W

/-- The `forward_to_deserialize_any!` table shared by the four value-shape
forwarding deserializers of `src/private.rs` (their lists include
`ignored_any`): every entry point runs the adapter's `deserialize_any`. -/
def fwdDispatch {V W E : Type} (deAny : FwdVisitor V W E → Except E W) :
    Shape → FwdVisitor V W E → Except E W
  | .sAny, vis => deAny vis
  | .sBool, vis => deAny vis
  | .sI8, vis => deAny vis
  | .sI16, vis => deAny vis
  | .sI32, vis => deAny vis
  | .sI64, vis => deAny vis
  | .sI128, vis => deAny vis
  | .sU8, vis => deAny vis
  | .sU16, vis => deAny vis
  | .sU32, vis => deAny vis
  | .sU64, vis => deAny vis
  | .sU128, vis => deAny vis
  | .sF32, vis => deAny vis
  | .sF64, vis => deAny vis
  | .sChar, vis => deAny vis
  | .sStr, vis => deAny vis
  | .sString, vis => deAny vis
  | .sBytes, vis => deAny vis
  | .sByteBuf, vis => deAny vis
  | .sOption, vis => deAny vis
  | .sUnit, vis => deAny vis
  | .sUnitStruct, vis => deAny vis
  | .sNewtypeStruct, vis => deAny vis
  | .sSeq, vis => deAny vis
  | .sTuple, vis => deAny vis
  | .sTupleStruct, vis => deAny vis
  | .sMap, vis => deAny vis
  | .sStruct, vis => deAny vis
  | .sEnum, vis => deAny vis
  | .sIdentifier, vis => deAny vis
  | .sIgnoredAny, vis => deAny vis

/-- `SomeDeserializer::deserialize_any`: dispatch once to `visit_some` with
the held inner deserializer. -/
def someDeserialize {V W E : Type} (d : V) (shape : Shape)
    (vis : FwdVisitor V W E) : Except E W :=
  fwdDispatch (fun vis => vis.visitSome d) shape vis

/-- `NewtypeDeserializer::deserialize_any`: dispatch once to
`visit_newtype_struct`. -/
def newtypeDeserialize {V W E : Type} (d : V) (shape : Shape)
    (vis : FwdVisitor V W E) : Except E W :=
  fwdDispatch (fun vis => vis.visitNewtypeStruct d) shape vis

/-- `EnumDeserializer::deserialize_any`: dispatch once to `visit_enum` with
the held enum access value. -/
def enumDeserialize {V W E : Type} (d : V) (shape : Shape)
    (vis : FwdVisitor V W E) : Except E W :=
  fwdDispatch (fun vis => vis.visitEnum d) shape vis

/-- `ByteBufDeserializer::deserialize_any`: dispatch once to
`visit_byte_buf` with the held buffer. -/
def byteBufDeserialize {V W E : Type} (buf : Bytes) (shape : Shape)
    (vis : FwdVisitor V W E) : Except E W :=
  fwdDispatch (fun vis => vis.visitByteBuf buf) shape vis

/-- JSON-style values for the concrete scenario of `tests/test.rs`;
non-integer numbers carry an opaque payload. -/
inductive JVal where
  | jNull
  | jBool (b : Bool)
  | jInt (n : Int)
  | jNum (q : Int)
  | jStr (s : Bytes)
  deriving DecidableEq, Repr

/-- Byte rendering of an ASCII field name. -/
def strBytes (s : String) : Bytes := s.data.map Char.toNat

/-- `f32: Deserialize` on a JSON value: numbers decode, other shapes are a
type mismatch. -/
def decodeF32 : JVal → Except Unit JVal
  | .jInt n => Except.ok (.jInt n)
  | .jNum q => Except.ok (.jNum q)
  | _ => Except.error ()

/-- `bool: Deserialize`. -/
def decodeBool : JVal → Except Unit Bool
  | .jBool b => Except.ok b
  | _ => Except.error ()

/-- `i32: Deserialize` (range checks elided; the scenario uses small
integers). -/
def decodeI32 : JVal → Except Unit Int
  | .jInt n => Except.ok n
  | _ => Except.error ()

/-- `String: Deserialize`. -/
def decodeStr : JVal → Except Unit Bytes
  | .jStr s => Except.ok s
  | _ => Except.error ()

/-- `Option<f32>: Deserialize`: null is `None`, anything else decodes the
inner value. -/
def decodeOptF32 : JVal → Except Unit (Option JVal)
  | .jNull => Except.ok none
  | v => (decodeF32 v).map some

/-- `Option<bool>: Deserialize`. -/
def decodeOptBool : JVal → Except Unit (Option Bool)
  | .jNull => Except.ok none
  | v => (decodeBool v).map some

/-- The generated `Field` enum for `Outer` (tests/test.rs). -/
inductive OuterField where
  | fBefore
  | fAfter
  deriving DecidableEq, Repr

/-- The generated `Capture` struct for `Outer`: one optional slot per
non-flattened field. -/
structure OuterCap where
  before : Option (Option JVal)
  after : Option (Option Bool)
  deriving DecidableEq, Repr

/-- `try_send_key` of the generated capture (tests/test.rs): match the byte
key against the declared field names. -/
def outerTryKey (s : OuterCap) (key : Bytes) : Option OuterField × OuterCap :=
  if key = strBytes "before" then (some OuterField.fBefore, s)
  else if key = strBytes "after" then (some OuterField.fAfter, s)
  else (none, s)

/-- `send_value` of the generated capture: decode the field's type and
store the slot (overwriting any earlier value). -/
def outerSend (s : OuterCap) (f : OuterField) (v : JVal) : Except Unit OuterCap :=
  match f with
  | OuterField.fBefore => (decodeOptF32 v).map fun x => { s with before := some x }
  | OuterField.fAfter => (decodeOptBool v).map fun x => { s with after := some x }

/-- The generated `KeyCapture` impl for `Outer` (tests/test.rs). -/
def outerKeyCapture : KeyCapture OuterCap OuterField JVal Unit where
  trySendKey := outerTryKey
  sendValue := outerSend

/-- Slots of the derived visitor for `Inner` (`integer`, `string`, and the
defaulted `before`). -/
structure InnerSlots where
  integer : Option Int
  string : Option Bytes
  before : Option JVal
  deriving DecidableEq, Repr

/-- One entry as seen by the derived `Inner` visitor: a textual key selects
a declared field (a second occurrence is a duplicate-field error), any
other key is ignored together with its value. -/
def innerStep (st : InnerSlots) (k : KeyData JVal) (v : JVal) :
    Except Unit InnerSlots :=
  match keyBytes k with
  | some bs =>
    if bs = strBytes "integer" then
      match st.integer with
      | some _ => Except.error ()
      | none => (decodeI32 v).map fun n => { st with integer := some n }
    else if bs = strBytes "string" then
      match st.string with
      | some _ => Except.error ()
      | none => (decodeStr v).map fun x => { st with string := some x }
    else if bs = strBytes "before" then
      match st.before with
      | some _ => Except.error ()
      | none => (decodeF32 v).map fun x => { st with before := some x }
    else Except.ok st
  | none => Except.ok st

/-- The derived `Inner` visitor's map loop over the entries it observes. -/
def innerFold : InnerSlots → List (KeyData JVal × JVal) → Except Unit InnerSlots
  | st, [] => Except.ok st
  | st, (k, v) :: rest => (innerStep st k v).bind fun st' => innerFold st' rest

/-- The decoded `Inner` record. -/
structure InnerVal where
  integer : Int
  string : Bytes
  before : JVal
  deriving DecidableEq, Repr

/-- Assemble `Inner`: required fields must be present, `before` falls back
to its declared default. -/
def innerFinish (st : InnerSlots) : Except Unit InnerVal :=
  match st.integer, st.string with
  | some n, some s => Except.ok ⟨n, s, st.before.getD (.jInt 0)⟩
  | _, _ => Except.error ()

/-- The decoded `Outer` record. -/
structure OuterVal where
  before : Option JVal
  after : Option Bool
  inner : InnerVal
  deriving DecidableEq, Repr

/-- Decode `Outer` through the flatten pipeline exactly as in
tests/test.rs: run the routing `visit_map` with the generated capture —
the inner visitor reads every entry it is offered — then feed the observed
entries to the `Inner` visitor and assemble both records (`Option` outer
fields defaulting to `None` when unseen). -/
def outerDecode (l : List (KeyData JVal × JVal)) : Except Unit OuterVal :=
  match flattenVisitMap outerKeyCapture (fun k => Except.ok k) (fun v => Except.ok v)
      l.length l ⟨none, none⟩ with
  | none => Except.error ()
  | some (.error e) => Except.error e
  | some (.ok (es, capf)) =>
    (innerFold ⟨none, none, none⟩ es).bind fun slots =>
    (innerFinish slots).map fun innerv =>
      { before := capf.before.getD none, after := capf.after.getD none,
        inner := innerv }

/-- The byte renderings of a record's keys, in order. -/
def byteKeys (l : List (KeyData JVal × JVal)) : List Bytes :=
  l.filterMap fun e => keyBytes e.1

/-- First value stored at a given byte key. -/
def findByKey (bs : Bytes) (l : List (KeyData JVal × JVal)) : Option JVal :=
  (l.find? fun e => decide (keyBytes e.1 = some bs)).map fun e => e.2

/-- Pure classification of the outer capture. -/
def outerClaims (k : KeyData JVal) : Bool :=
  match keyBytes k with
  | some bs =>
    if bs = strBytes "before" then true
    else if bs = strBytes "after" then true
    else false
  | none => false

/-- Order-free slot update for `Outer.before`: decode the (unique) claimed
value when present, otherwise keep the slot. -/
def slotUpdF32 : Option JVal → Option (Option JVal) →
    Except Unit (Option (Option JVal))
  | none, old => Except.ok old
  | some v, _ => (decodeOptF32 v).map some

/-- Order-free slot update for `Outer.after`. -/
def slotUpdBool : Option JVal → Option (Option Bool) →
    Except Unit (Option (Option Bool))
  | none, old => Except.ok old
  | some v, _ => (decodeOptBool v).map some

/-- Order-free form of routing a record through the outer capture, valid
for records without repeated byte keys. -/
def outerRouteSpec (l : List (KeyData JVal × JVal)) (s : OuterCap) :
    Except Unit (List (KeyData JVal × JVal) × OuterCap) :=
  (slotUpdF32 (findByKey (strBytes "before") l) s.before).bind fun b =>
  (slotUpdBool (findByKey (strBytes "after") l) s.after).bind fun a =>
  Except.ok (l.filter fun e => !outerClaims e.1, ⟨b, a⟩)

/-- Order-free slot update for a declared `Inner` field: present slot plus
a new occurrence is a duplicate error, otherwise decode into the slot. -/
def innerSlotUpd {α : Type} (dec : JVal → Except Unit α) :
    Option JVal → Option α → Except Unit (Option α)
  | none, old => Except.ok old
  | some _, some _ => Except.error ()
  | some v, none => (dec v).map some

/-- Order-free form of the `Inner` visitor over the entries it observes,
valid for entry lists without repeated byte keys. -/
def innerSpec (l : List (KeyData JVal × JVal)) (st : InnerSlots) :
    Except Unit InnerSlots :=
  (innerSlotUpd decodeI32 (findByKey (strBytes "integer") l) st.integer).bind fun i =>
  (innerSlotUpd decodeStr (findByKey (strBytes "string") l) st.string).bind fun sl =>
  (innerSlotUpd decodeF32 (findByKey (strBytes "before") l) st.before).map fun b =>
  ⟨i, sl, b⟩

/-- Order-free form of the whole `Outer` decode. -/
def outerDecodeSpec (l : List (KeyData JVal × JVal)) : Except Unit OuterVal :=
  (outerRouteSpec l ⟨none, none⟩).bind fun r =>
  (innerSpec r.1 ⟨none, none, none⟩).bind fun slots =>
  (innerFinish slots).map fun iv =>
    ⟨r.2.before.getD none, r.2.after.getD none, iv⟩

theorem byteKeys_cons_some {k : KeyData JVal} {bs : Bytes} {v : JVal}
    {l : List (KeyData JVal × JVal)} (h : keyBytes k = some bs) :
    byteKeys ((k, v) :: l) = bs :: byteKeys l := by
  simp [byteKeys, List.filterMap_cons, h]

theorem byteKeys_cons_none {k : KeyData JVal} {v : JVal}
    {l : List (KeyData JVal × JVal)} (h : keyBytes k = none) :
    byteKeys ((k, v) :: l) = byteKeys l := by
  simp [byteKeys, List.filterMap_cons, h]

theorem findByKey_cons_match {k : KeyData JVal} {bs : Bytes} {v : JVal}
    {l : List (KeyData JVal × JVal)} (h : keyBytes k = some bs) :
    findByKey bs ((k, v) :: l) = some v := by
  simp [findByKey, List.find?_cons_of_pos, h]

theorem findByKey_cons_ne {k : KeyData JVal} {bs : Bytes} {v : JVal}
    {l : List (KeyData JVal × JVal)} (h : ¬ keyBytes k = some bs) :
    findByKey bs ((k, v) :: l) = findByKey bs l := by
  simp only [findByKey]
  rw [List.find?_cons_of_neg]
  simp [h]

theorem findByKey_not_mem {bs : Bytes} {l : List (KeyData JVal × JVal)}
    (h : bs ∉ byteKeys l) : findByKey bs l = none := by
  cases hf : l.find? fun e => decide (keyBytes e.1 = some bs) with
  | none => simp [findByKey, hf]
  | some e =>
    exfalso
    apply h
    have hp := List.find?_some hf
    have hm := List.mem_of_find?_eq_some hf
    simp only [decide_eq_true_eq] at hp
    exact List.mem_filterMap.mpr ⟨e, hm, hp⟩
theorem routeRef_outer_spec :
    ∀ (l : List (KeyData JVal × JVal)), (byteKeys l).Nodup → ∀ (s : OuterCap),
    routeRef outerKeyCapture l s = outerRouteSpec l s := by
  intro l
  induction l with
  | nil =>
    intro _ s
    simp [routeRef, outerRouteSpec, findByKey, slotUpdF32, slotUpdBool, Except.bind]
  | cons e l ih =>
    intro hnd s
    obtain ⟨k, v⟩ := e
    rcases hb : keyBytes k with _ | bs
    · have hnd' : (byteKeys l).Nodup := by
        rw [byteKeys_cons_none hb] at hnd
        exact hnd
      have hc : classify outerKeyCapture s k = (none, s) := by
        simp [classify, hb]
      have hcl : outerClaims k = false := by
        simp [outerClaims, hb]
      have hfb : findByKey (strBytes "before") ((k, v) :: l) =
          findByKey (strBytes "before") l := findByKey_cons_ne (by simp [hb])
      have hfa : findByKey (strBytes "after") ((k, v) :: l) =
          findByKey (strBytes "after") l := findByKey_cons_ne (by simp [hb])
      simp only [routeRef, hc, ih hnd' s, outerRouteSpec, hfb, hfa,
        List.filter_cons, hcl]
      rcases slotUpdF32 (findByKey (strBytes "before") l) s.before with eb | b
      · rfl
      · rcases slotUpdBool (findByKey (strBytes "after") l) s.after with ea | a
        · rfl
        · simp [Except.bind, Except.map]
    · rw [byteKeys_cons_some hb] at hnd
      rw [List.nodup_cons] at hnd
      obtain ⟨hmem, hnd'⟩ := hnd
      by_cases hbb : bs = strBytes "before"
      · rw [hbb] at hb hmem
        have hc : classify outerKeyCapture s k = (some OuterField.fBefore, s) := by
          simp [classify, hb, outerKeyCapture, outerTryKey]
        have hfb : findByKey (strBytes "before") ((k, v) :: l) = some v :=
          findByKey_cons_match hb
        have hfbl : findByKey (strBytes "before") l = none := findByKey_not_mem hmem
        have hfa : findByKey (strBytes "after") ((k, v) :: l) =
            findByKey (strBytes "after") l := by
          apply findByKey_cons_ne
          rw [hb]
          simp only [Option.some.injEq]
          decide
        have hcl : outerClaims k = true := by
          simp [outerClaims, hb]
        simp only [routeRef, hc]
        have hsv : outerKeyCapture.sendValue s OuterField.fBefore v =
            (decodeOptF32 v).map fun x => { s with before := some x } := rfl
        rw [hsv]
        rcases hd : decodeOptF32 v with ed | x
        · simp [outerRouteSpec, hfb, slotUpdF32, hd, Except.map, Except.bind]
        · simp only [Except.map, Except.bind]
          rw [ih hnd' { s with before := some x }]
          simp [outerRouteSpec, hfb, hfa, slotUpdF32, hfbl, hd, Except.map,
            Except.bind, List.filter_cons, hcl]
      · by_cases hba : bs = strBytes "after"
        · rw [hba] at hb hmem
          have hc : classify outerKeyCapture s k = (some OuterField.fAfter, s) := by
            simp only [classify, hb, outerKeyCapture, outerTryKey]
            simp
            decide
          have hfa : findByKey (strBytes "after") ((k, v) :: l) = some v :=
            findByKey_cons_match hb
          have hfal : findByKey (strBytes "after") l = none := findByKey_not_mem hmem
          have hfb : findByKey (strBytes "before") ((k, v) :: l) =
              findByKey (strBytes "before") l := by
            apply findByKey_cons_ne
            rw [hb]
            simp only [Option.some.injEq]
            decide
          have hcl : outerClaims k = true := by
            simp only [outerClaims, hb]
            simp
          simp only [routeRef, hc]
          have hsv : outerKeyCapture.sendValue s OuterField.fAfter v =
              (decodeOptBool v).map fun x => { s with after := some x } := rfl
          rw [hsv]
          rcases hd : decodeOptBool v with ed | x
          · simp only [outerRouteSpec, hfa, hfb, slotUpdBool, hd, Except.map,
              Except.bind]
            rcases slotUpdF32 (findByKey (strBytes "before") l) s.before with eb | b
            · rfl
            · rfl
          · simp only [Except.map, Except.bind]
            rw [ih hnd' { s with after := some x }]
            simp only [outerRouteSpec, hfa, hfb, slotUpdBool, hfal, hd, Except.map,
              Except.bind, List.filter_cons, hcl]
            rcases slotUpdF32 (findByKey (strBytes "before") l) s.before with eb | b
            · rfl
            · simp [Except.bind, Except.map]
        · have hc : classify outerKeyCapture s k = (none, s) := by
            simp only [classify, hb, outerKeyCapture, outerTryKey]
            rw [if_neg hbb, if_neg hba]
          have hcl : outerClaims k = false := by
            simp only [outerClaims, hb]
            rw [if_neg hbb, if_neg hba]
          have hfb : findByKey (strBytes "before") ((k, v) :: l) =
              findByKey (strBytes "before") l := by
            apply findByKey_cons_ne
            rw [hb]
            simp only [Option.some.injEq]
            exact hbb
          have hfa : findByKey (strBytes "after") ((k, v) :: l) =
              findByKey (strBytes "after") l := by
            apply findByKey_cons_ne
            rw [hb]
            simp only [Option.some.injEq]
            exact hba
          simp only [routeRef, hc, ih hnd' s, outerRouteSpec, hfb, hfa,
            List.filter_cons, hcl]
          rcases slotUpdF32 (findByKey (strBytes "before") l) s.before with eb | b
          · rfl
          · rcases slotUpdBool (findByKey (strBytes "after") l) s.after with ea | a
            · rfl
            · simp [Except.bind, Except.map]

theorem innerFold_spec :
    ∀ (l : List (KeyData JVal × JVal)), (byteKeys l).Nodup → ∀ (st : InnerSlots),
    innerFold st l = innerSpec l st := by
  intro l
  induction l with
  | nil =>
    intro _ st
    simp [innerFold, innerSpec, findByKey, innerSlotUpd, Except.bind, Except.map]
  | cons e l ih =>
    intro hnd st
    obtain ⟨k, v⟩ := e
    rcases hb : keyBytes k with _ | bs
    · have hnd' : (byteKeys l).Nodup := by
        rw [byteKeys_cons_none hb] at hnd
        exact hnd
      have hstep : innerStep st k v = Except.ok st := by
        simp [innerStep, hb]
      have hfi : findByKey (strBytes "integer") ((k, v) :: l) =
          findByKey (strBytes "integer") l := findByKey_cons_ne (by simp [hb])
      have hfs : findByKey (strBytes "string") ((k, v) :: l) =
          findByKey (strBytes "string") l := findByKey_cons_ne (by simp [hb])
      have hfb : findByKey (strBytes "before") ((k, v) :: l) =
          findByKey (strBytes "before") l := findByKey_cons_ne (by simp [hb])
      simp only [innerFold, hstep, Except.bind, ih hnd' st, innerSpec, hfi, hfs, hfb]
    · rw [byteKeys_cons_some hb] at hnd
      rw [List.nodup_cons] at hnd
      obtain ⟨hmem, hnd'⟩ := hnd
      by_cases hbi : bs = strBytes "integer"
      · rw [hbi] at hb hmem
        have hfi : findByKey (strBytes "integer") ((k, v) :: l) = some v :=
          findByKey_cons_match hb
        have hfil : findByKey (strBytes "integer") l = none := findByKey_not_mem hmem
        have hfs : findByKey (strBytes "string") ((k, v) :: l) =
            findByKey (strBytes "string") l := by
          apply findByKey_cons_ne
          rw [hb]
          simp only [Option.some.injEq]
          decide
        have hfb : findByKey (strBytes "before") ((k, v) :: l) =
            findByKey (strBytes "before") l := by
          apply findByKey_cons_ne
          rw [hb]
          simp only [Option.some.injEq]
          decide
        have hstep : innerStep st k v =
            match st.integer with
            | some _ => Except.error ()
            | none => (decodeI32 v).map fun n => { st with integer := some n } := by
          simp only [innerStep, hb]
          simp
        rcases hsi : st.integer with _ | n0
        · rw [hsi] at hstep
          rcases hd : decodeI32 v with ed | n
          · rw [hd] at hstep
            have hslot : innerSlotUpd decodeI32 (some v) st.integer =
                Except.error ed := by
              rw [hsi]
              simp [innerSlotUpd, hd, Except.map]
            simp only [innerFold, hstep, Except.map, Except.bind, innerSpec, hfi,
              hslot]
          · rw [hd] at hstep
            have hslot : innerSlotUpd decodeI32 (some v) st.integer =
                Except.ok (some n) := by
              rw [hsi]
              simp [innerSlotUpd, hd, Except.map]
            have hslot2 : innerSlotUpd decodeI32 (findByKey (strBytes "integer") l)
                (some n) = Except.ok (some n) := by
              rw [hfil]
              rfl
            simp only [innerFold, hstep, Except.map, Except.bind]
            rw [ih hnd' { st with integer := some n }]
            simp only [innerSpec, hfi, hfs, hfb, hslot, hslot2, Except.bind]
        · rw [hsi] at hstep
          have hslot : innerSlotUpd decodeI32 (some v) st.integer =
              Except.error () := by
            rw [hsi]
            rfl
          simp only [innerFold, hstep, Except.bind, innerSpec, hfi, hslot]
      · by_cases hbs : bs = strBytes "string"
        · rw [hbs] at hb hmem
          have hfs : findByKey (strBytes "string") ((k, v) :: l) = some v :=
            findByKey_cons_match hb
          have hfsl : findByKey (strBytes "string") l = none := findByKey_not_mem hmem
          have hfi : findByKey (strBytes "integer") ((k, v) :: l) =
              findByKey (strBytes "integer") l := by
            apply findByKey_cons_ne
            rw [hb]
            simp only [Option.some.injEq]
            decide
          have hfb : findByKey (strBytes "before") ((k, v) :: l) =
              findByKey (strBytes "before") l := by
            apply findByKey_cons_ne
            rw [hb]
            simp only [Option.some.injEq]
            decide
          have hstep : innerStep st k v =
              match st.string with
              | some _ => Except.error ()
              | none => (decodeStr v).map fun x => { st with string := some x } := by
            simp only [innerStep, hb]
            rw [if_neg (by decide)]
            simp
          rcases hss : st.string with _ | s0
          · rw [hss] at hstep
            rcases hd : decodeStr v with ed | x
            · rw [hd] at hstep
              have hslot : innerSlotUpd decodeStr (some v) st.string =
                  Except.error ed := by
                rw [hss]
                simp [innerSlotUpd, hd, Except.map]
              simp only [innerFold, hstep, Except.map, Except.bind, innerSpec,
                hfi, hfs, hslot]
              rcases innerSlotUpd decodeI32 (findByKey (strBytes "integer") l)
                  st.integer with ei | i
              · rfl
              · rfl
            · rw [hd] at hstep
              have hslot : innerSlotUpd decodeStr (some v) st.string =
                  Except.ok (some x) := by
                rw [hss]
                simp [innerSlotUpd, hd, Except.map]
              have hslot2 : innerSlotUpd decodeStr (findByKey (strBytes "string") l)
                  (some x) = Except.ok (some x) := by
                rw [hfsl]
                rfl
              simp only [innerFold, hstep, Except.map, Except.bind]
              rw [ih hnd' { st with string := some x }]
              simp only [innerSpec, hfi, hfs, hfb, hslot, hslot2, Except.bind]
          · rw [hss] at hstep
            have hslot : innerSlotUpd decodeStr (some v) st.string =
                Except.error () := by
              rw [hss]
              rfl
            simp only [innerFold, hstep, Except.bind, innerSpec, hfi, hfs, hslot]
            rcases innerSlotUpd decodeI32 (findByKey (strBytes "integer") l)
                st.integer with ei | i
            · rfl
            · rfl
        · by_cases hbf : bs = strBytes "before"
          · rw [hbf] at hb hmem
            have hfb : findByKey (strBytes "before") ((k, v) :: l) = some v :=
              findByKey_cons_match hb
            have hfbl : findByKey (strBytes "before") l = none :=
              findByKey_not_mem hmem
            have hfi : findByKey (strBytes "integer") ((k, v) :: l) =
                findByKey (strBytes "integer") l := by
              apply findByKey_cons_ne
              rw [hb]
              simp only [Option.some.injEq]
              decide
            have hfs : findByKey (strBytes "string") ((k, v) :: l) =
                findByKey (strBytes "string") l := by
              apply findByKey_cons_ne
              rw [hb]
              simp only [Option.some.injEq]
              decide
            have hstep : innerStep st k v =
                match st.before with
                | some _ => Except.error ()
                | none => (decodeF32 v).map fun x => { st with before := some x } := by
              simp only [innerStep, hb]
              rw [if_neg (by decide), if_neg (by decide)]
              simp
            rcases hsb : st.before with _ | b0
            · rw [hsb] at hstep
              rcases hd : decodeF32 v with ed | x
              · rw [hd] at hstep
                have hslot : innerSlotUpd decodeF32 (some v) st.before =
                    Except.error ed := by
                  rw [hsb]
                  simp [innerSlotUpd, hd, Except.map]
                simp only [innerFold, hstep, Except.map, Except.bind, innerSpec,
                  hfi, hfs, hfb, hslot]
                rcases innerSlotUpd decodeI32 (findByKey (strBytes "integer") l)
                    st.integer with ei | i
                · rfl
                · rcases innerSlotUpd decodeStr (findByKey (strBytes "string") l)
                      st.string with es | s1
                  · rfl
                  · rfl
              · rw [hd] at hstep
                have hslot : innerSlotUpd decodeF32 (some v) st.before =
                    Except.ok (some x) := by
                  rw [hsb]
                  simp [innerSlotUpd, hd, Except.map]
                have hslot2 : innerSlotUpd decodeF32 (findByKey (strBytes "before") l)
                    (some x) = Except.ok (some x) := by
                  rw [hfbl]
                  rfl
                simp only [innerFold, hstep, Except.map, Except.bind]
                rw [ih hnd' { st with before := some x }]
                simp only [innerSpec, hfi, hfs, hfb, hslot, hslot2, Except.bind]
            · rw [hsb] at hstep
              have hslot : innerSlotUpd decodeF32 (some v) st.before =
                  Except.error () := by
                rw [hsb]
                rfl
              simp only [innerFold, hstep, Except.bind, innerSpec, hfi, hfs, hfb,
                hslot]
              rcases innerSlotUpd decodeI32 (findByKey (strBytes "integer") l)
                  st.integer with ei | i
              · rfl
              · rcases innerSlotUpd decodeStr (findByKey (strBytes "string") l)
                    st.string with es | s1
                · rfl
                · rfl
          · have hstep : innerStep st k v = Except.ok st := by
              simp only [innerStep, hb]
              rw [if_neg hbi, if_neg hbs, if_neg hbf]
            have hfi : findByKey (strBytes "integer") ((k, v) :: l) =
                findByKey (strBytes "integer") l := by
              apply findByKey_cons_ne
              rw [hb]
              simp only [Option.some.injEq]
              exact hbi
            have hfs : findByKey (strBytes "string") ((k, v) :: l) =
                findByKey (strBytes "string") l := by
              apply findByKey_cons_ne
              rw [hb]
              simp only [Option.some.injEq]
              exact hbs
            have hfb : findByKey (strBytes "before") ((k, v) :: l) =
                findByKey (strBytes "before") l := by
              apply findByKey_cons_ne
              rw [hb]
              simp only [Option.some.injEq]
              exact hbf
            simp only [innerFold, hstep, Except.bind, ih hnd' st, innerSpec, hfi,
              hfs, hfb]

theorem outerDecode_eq_spec {l : List (KeyData JVal × JVal)}
    (hnd : (byteKeys l).Nodup) : outerDecode l = outerDecodeSpec l := by
  have hsub : (l.filter fun e => !outerClaims e.1).Sublist l := List.filter_sublist l
  have hnd' : (byteKeys (l.filter fun e => !outerClaims e.1)).Nodup :=
    List.Nodup.sublist (List.Sublist.filterMap _ hsub) hnd
  simp only [outerDecode]
  rw [flattenVisitMap_eq outerKeyCapture (fun k => k) (fun v => v) l.length l
    ⟨none, none⟩]
  rw [routeRef_outer_spec l hnd ⟨none, none⟩]
  simp only [outerRouteSpec, outerDecodeSpec]
  rcases hb1 : slotUpdF32 (findByKey (strBytes "before") l) none with e1 | b
  · rfl
  · rcases hb2 : slotUpdBool (findByKey (strBytes "after") l) none with e2 | a
    · rfl
    · simp only [Except.bind, Except.map]
      have hlen : (l.filter fun e => !outerClaims e.1).length ≤ l.length :=
        List.Sublist.length_le hsub
      rw [List.take_of_length_le hlen]
      have hmapid : ((l.filter fun e => !outerClaims e.1).map fun kv => (kv.1, kv.2)) =
          l.filter fun e => !outerClaims e.1 := by
        simp
      rw [hmapid]
      rw [innerFold_spec _ hnd' ⟨none, none, none⟩]

theorem find_eq_head_filter {α : Type} (p : α → Bool) :
    ∀ (l : List α), l.find? p = (l.filter p).head?
  | [] => rfl
  | a :: l => by
    cases hpa : p a with
    | true => simp [List.find?_cons_of_pos _ hpa, List.filter_cons, hpa]
    | false =>
      have hneg : ¬ p a = true := by
        rw [hpa]
        simp
      rw [List.find?_cons_of_neg _ hneg]
      rw [find_eq_head_filter p l]
      simp [List.filter_cons, hpa]

theorem perm_len_le_one_eq {α : Type} {l l' : List α} (hp : l.Perm l')
    (hl : l.length ≤ 1) : l = l' := by
  cases l with
  | nil => rw [(List.Perm.eq_nil hp.symm)]
  | cons a t =>
    cases t with
    | nil => exact (List.perm_singleton.mp hp.symm).symm
    | cons b t2 => simp at hl

theorem filter_key_len_le_one {l : List (KeyData JVal × JVal)}
    (hnd : (byteKeys l).Nodup) (bs : Bytes) :
    (l.filter fun e => decide (keyBytes e.1 = some bs)).length ≤ 1 := by
  induction l with
  | nil => simp
  | cons e l ih =>
    obtain ⟨k, v⟩ := e
    rcases hb : keyBytes k with _ | bs'
    · rw [byteKeys_cons_none hb] at hnd
      simp only [List.filter_cons, hb]
      simp only [decide_eq_true_eq]
      rw [if_neg (by simp)]
      exact ih hnd
    · rw [byteKeys_cons_some hb] at hnd
      rw [List.nodup_cons] at hnd
      obtain ⟨hmem, hnd'⟩ := hnd
      by_cases hbs : bs' = bs
      · subst hbs
        have hnil : (l.filter fun e => decide (keyBytes e.1 = some bs')) = [] := by
          rw [List.filter_eq_nil_iff]
          intro a ha
          simp only [decide_eq_true_eq]
          intro hkey
          exact hmem (List.mem_filterMap.mpr ⟨a, ha, hkey⟩)
        simp only [List.filter_cons, hb]
        rw [if_pos (by simp), hnil]
        simp
      · simp only [List.filter_cons, hb]
        rw [if_neg (by simp [hbs])]
        exact ih hnd'

theorem findByKey_perm {l l' : List (KeyData JVal × JVal)} (hp : l.Perm l')
    (hnd : (byteKeys l).Nodup) (bs : Bytes) : findByKey bs l = findByKey bs l' := by
  have hf : (l.filter fun e => decide (keyBytes e.1 = some bs)) =
      (l'.filter fun e => decide (keyBytes e.1 = some bs)) :=
    perm_len_le_one_eq (hp.filter _) (filter_key_len_le_one hnd bs)
  simp only [findByKey, find_eq_head_filter, hf]

theorem outerDecodeSpec_perm {l l' : List (KeyData JVal × JVal)} (hp : l.Perm l')
    (hnd : (byteKeys l).Nodup) : outerDecodeSpec l = outerDecodeSpec l' := by
  have hndr : (byteKeys (l.filter fun e => !outerClaims e.1)).Nodup :=
    List.Nodup.sublist (List.Sublist.filterMap _ (List.filter_sublist l)) hnd
  have hpf : (l.filter fun e => !outerClaims e.1).Perm
      (l'.filter fun e => !outerClaims e.1) := hp.filter _
  simp only [outerDecodeSpec, outerRouteSpec,
    findByKey_perm hp hnd (strBytes "before"),
    findByKey_perm hp hnd (strBytes "after")]
  rcases slotUpdF32 (findByKey (strBytes "before") l') none with e1 | b
  · rfl
  · rcases slotUpdBool (findByKey (strBytes "after") l') none with e2 | a
    · rfl
    · simp only [Except.bind, innerSpec,
        findByKey_perm hpf hndr (strBytes "integer"),
        findByKey_perm hpf hndr (strBytes "string"),
        findByKey_perm hpf hndr (strBytes "before")]

theorem routeRef_ok_full {σ Token V E : Type} {cap : KeyCapture σ Token V E}
    {l : List (KeyData V × V)} {s : σ} {r : List (KeyData V × V)} {sf : σ}
    (h : routeRef cap l s = Except.ok (r, sf)) :
    ∃ c, routeRefFull cap l s = Except.ok (c, r, sf) := by
  rw [routeRef_eq_routeRefFull] at h
  cases hf : routeRefFull cap l s with
  | error e => rw [hf] at h; simp [Except.map] at h
  | ok t =>
    rw [hf] at h
    obtain ⟨c, r0, s0⟩ := t
    simp only [Except.map, Except.ok.injEq, Prod.mk.injEq] at h
    obtain ⟨h1, h2⟩ := h
    subst h1
    subst h2
    exact ⟨c, rfl⟩

/-- C1: for a well-formed map input decoded through the flatten routing
with a key capture, every source entry goes to exactly one destination:
the claimed entries (whose values are sent to the capture) and the
rejected entries (observed by the inner visitor) are complementary
sub-lists of the source — their concatenation is a permutation of it —
and the full decode surfaces exactly the rejected entries with the final
capture state. -/
theorem claim_C1_partition {σ Token V E β γ : Type} (cap : KeyCapture σ Token V E)
    (f : KeyData V → β) (g : V → γ) (l : List (KeyData V × V)) (s : σ)
    {c r : List (KeyData V × V)} {sf : σ}
    (h : routeRefFull cap l s = Except.ok (c, r, sf)) :
    c.Sublist l ∧ r.Sublist l ∧ (c ++ r).Perm l ∧
      flattenVisitMap cap (fun k => Except.ok (f k)) (fun v => Except.ok (g v))
          l.length l s =
        some (Except.ok (r.map fun kv => (f kv.1, g kv.2), sf)) := by
  obtain ⟨hc, hr, hp⟩ := routeRefFull_partition cap l s h
  refine ⟨hc, hr, hp, ?_⟩
  rw [flattenVisitMap_eq]
  have hroute : routeRef cap l s = Except.ok (r, sf) := by
    rw [routeRef_eq_routeRefFull, h]
    rfl
  rw [hroute]
  have htake : r.take l.length = r :=
    List.take_of_length_le (List.Sublist.length_le hr)
  simp [Except.map, htake]

/-- C2: the inner visitor observes exactly the sub-sequence of source
entries whose keys the capture rejected, in source order, with
capture-claimed entries elided. -/
theorem claim_C2_inner_subsequence {σ Token V E β γ : Type}
    (cap : KeyCapture σ Token V E) (f : KeyData V → β) (g : V → γ)
    (l : List (KeyData V × V)) (s : σ) (n : Nat)
    {r : List (KeyData V × V)} {sf : σ}
    (h : routeRef cap l s = Except.ok (r, sf)) (hn : r.length ≤ n) :
    r.Sublist l ∧
      flattenVisitMap cap (fun k => Except.ok (f k)) (fun v => Except.ok (g v))
          n l s =
        some (Except.ok (r.map fun kv => (f kv.1, g kv.2), sf)) := by
  obtain ⟨c, hfull⟩ := routeRef_ok_full h
  obtain ⟨-, hr, -⟩ := routeRefFull_partition cap l s hfull
  refine ⟨hr, ?_⟩
  rw [flattenVisitMap_eq, h]
  simp [Except.map, List.take_of_length_le hn]

/-- C3: however early the inner visitor stops (after any `n` entries), the
drain step still routes every leftover entry through the claim logic: the
run never fails on unwanted leftovers and the final capture state is the
same `sf` for every stopping point, so outer fields positioned after the
stop are still captured. -/
theorem claim_C3_drain {σ Token V E β γ : Type} (cap : KeyCapture σ Token V E)
    (f : KeyData V → β) (g : V → γ) (l : List (KeyData V × V)) (s : σ)
    {r : List (KeyData V × V)} {sf : σ}
    (h : routeRef cap l s = Except.ok (r, sf)) :
    ∀ n : Nat,
      flattenVisitMap cap (fun k => Except.ok (f k)) (fun v => Except.ok (g v))
          n l s =
        some (Except.ok ((r.take n).map fun kv => (f kv.1, g kv.2), sf)) := by
  intro n
  rw [flattenVisitMap_eq, h]
  rfl

/-- C4: a fused cursor reports end-of-data immediately once exhausted —
its state is `none` and every advance operation (`next_item` and the
`next_key_seed`, `next_element_seed`, `next_entry_seed` wrappers) returns
end-of-data for every possible underlying operation, without invoking it;
and observing the underlying cursor report end-of-data sets the state to
`none`. -/
theorem claim_C4_fused :
    (∀ (A T E : Type) (op : A → Except E (Option (T × A))),
        (⟨none⟩ : FusedAccess A).nextItem op = Except.ok (none, ⟨none⟩)) ∧
    (∀ (A T E : Type) (a : A) (op : A → Except E (Option (T × A))),
        op a = Except.ok none →
          (⟨some a⟩ : FusedAccess A).nextItem op = Except.ok (none, ⟨none⟩)) ∧
    (∀ (A κ E : Type) (op : A → Except E (Option (κ × A))),
        (⟨none⟩ : FusedAccess A).nextKeySeedF op = Except.ok (none, ⟨none⟩)) ∧
    (∀ (A τ E : Type) (op : A → Except E (Option (τ × A))),
        (⟨none⟩ : FusedAccess A).nextElementSeedF op = Except.ok (none, ⟨none⟩)) ∧
    (∀ (A κ ω E : Type) (op : A → Except E (Option ((κ × ω) × A))),
        (⟨none⟩ : FusedAccess A).nextEntrySeedF op = Except.ok (none, ⟨none⟩)) := by
  refine ⟨fun A T E op => rfl, fun A T E a op h => ?_, fun A κ E op => rfl,
    fun A τ E op => rfl, fun A κ ω E op => rfl⟩
  simp [FusedAccess.nextItem, h, Except.map]

/-- C5 (counterexample): `deserialize_ignored_any` on the
`FlattenDeserializer` does not ask the source to decode a map through the
routing visitor — it forwards directly to the source's own
`deserialize_ignored_any`. -/
theorem claim_C5_counterexample :
    flattenDeserializerCall Shape.sIgnoredAny = FlattenCall.ignoredAnyDirect ∧
      FlattenCall.ignoredAnyDirect ≠ FlattenCall.mapWithFlattenVisitor := by
  exact ⟨rfl, by decide⟩

/-- C5 (amended): every decode request except `ignored_any` makes the
`FlattenDeserializer` ask the underlying source to decode a map driven by
the routing `FlattenVisitor`; `ignored_any` alone forwards directly to the
source's `deserialize_ignored_any`. -/
theorem claim_C5_amended (s : Shape) (h : s ≠ Shape.sIgnoredAny) :
    flattenDeserializerCall s = FlattenCall.mapWithFlattenVisitor := by
  cases s <;> first | rfl | exact absurd rfl h

/-- C6: at the capture boundary, the interaction log of a successful run
is well paired — every claim is immediately followed by exactly one value
send carrying the very same token, before any further key is classified,
and every value send is so preceded — the sent values are exactly the
claimed entries' values in order, and the run through the flatten pipeline
produces that very log. -/
theorem claim_C6_protocol {σ Token V E β γ : Type} (cap : KeyCapture σ Token V E)
    (f : KeyData V → β) (g : V → γ) (n : Nat) (l : List (KeyData V × V)) (s : σ)
    {c r : List (KeyData V × V)} {sf : σ} {logf : List (CapEvent Token V)}
    (h : routeRefFull (logCapture cap) l (s, []) = Except.ok (c, r, (sf, logf))) :
    WellPaired logf ∧ sentValues logf = c.map (fun e => e.2) ∧
      flattenVisitMap (logCapture cap) (fun k => Except.ok (f k))
          (fun v => Except.ok (g v)) n l (s, []) =
        some (Except.ok ((r.take n).map fun kv => (f kv.1, g kv.2), (sf, logf))) := by
  obtain ⟨ev, hev, hwp, hsv⟩ := routeRefFull_logCapture cap l s [] h
  have hev' : logf = ev := by simpa using hev
  subst hev'
  refine ⟨hwp, hsv, ?_⟩
  rw [flattenVisitMap_eq]
  have hroute : routeRef (logCapture cap) l (s, []) = Except.ok (r, (sf, logf)) := by
    rw [routeRef_eq_routeRefFull, h]
    rfl
  rw [hroute]
  rfl

/-- C7: requesting a value from the exhausted fused cursor is the fatal
branch (`none`), not a returned decode error; and under the routing
pipeline's own usage discipline the fatal branch is unreachable — every
`visit_map` run yields an ordinary result. -/
theorem claim_C7_fatal :
    (∀ (A ω E : Type) (op : A → Option (Except E (ω × A))),
        (⟨none⟩ : FusedAccess A).nextValueSeedF op = none) ∧
    (∀ (σ Token V E β γ : Type) (cap : KeyCapture σ Token V E)
        (seed : KeyData V → Except E β) (vseed : V → Except E γ) (n : Nat)
        (l : List (KeyData V × V)) (s : σ),
        (flattenVisitMap cap seed vseed n l s).isSome) :=
  ⟨fun A ω E op => rfl, fun σ Token V E β γ cap seed vseed n l s =>
    flattenVisitMap_isSome cap seed vseed n l s⟩

/-- C8: each value-shape forwarding deserializer treats every concrete
decode request identically to its generic `deserialize_any`, which
dispatches exactly once to the single matching visitor callback
(`visit_some`, `visit_newtype_struct`, `visit_enum`, `visit_byte_buf`)
and never fails of its own accord — its result is exactly the visitor's. -/
theorem claim_C8_forwarding {V W E : Type} (shape : Shape) (d : V) (buf : Bytes)
    (vis : FwdVisitor V W E) :
    someDeserialize d shape vis = someDeserialize d Shape.sAny vis ∧
    someDeserialize d shape vis = vis.visitSome d ∧
    newtypeDeserialize d shape vis = newtypeDeserialize d Shape.sAny vis ∧
    newtypeDeserialize d shape vis = vis.visitNewtypeStruct d ∧
    enumDeserialize d shape vis = enumDeserialize d Shape.sAny vis ∧
    enumDeserialize d shape vis = vis.visitEnum d ∧
    byteBufDeserialize buf shape vis = byteBufDeserialize buf Shape.sAny vis ∧
    byteBufDeserialize buf shape vis = vis.visitByteBuf buf := by
  cases shape <;> exact ⟨rfl, rfl, rfl, rfl, rfl, rfl, rfl, rfl⟩

/-- C9: decoding the test schema (outer fields `before`/`after`, inner
fields `integer`/`string` with a defaulted `before`, unknown keys
ignored) through the flatten pipeline is invariant under reordering the
record's entries, for records without repeated keys. -/
theorem claim_C9_reorder {l l' : List (KeyData JVal × JVal)} (hp : l.Perm l')
    (hnd : (byteKeys l).Nodup) : outerDecode l = outerDecode l' := by
  have hnd' : (byteKeys l').Nodup := ((List.Perm.filterMap _ hp).nodup_iff).mp hnd
  rw [outerDecode_eq_spec hnd, outerDecode_eq_spec hnd',
    outerDecodeSpec_perm hp hnd]

/-- C10: a key whose decoded shape is not textual or binary is never
offered to the capture — the routing outcome is `send_to_seed`,
independent of the capture — while str/string/bytes/byte-buffer shaped
keys are offered to the capture rendered as their byte sequence. -/
theorem claim_C10_key_shapes {σ Token V E β : Type}
    (cap cap' : KeyCapture σ Token V E) (seed : KeyData V → Except E β) (s : σ)
    (k : KeyData V) :
    (keyBytes k = none →
      flattenKeySeedVisit cap seed s k = sendToSeed seed s k ∧
      flattenKeySeedVisit cap seed s k = flattenKeySeedVisit cap' seed s k) ∧
    (∀ bs, keyBytes k = some bs →
      flattenKeySeedVisit cap seed s k = sendToCapture cap seed s k bs) := by
  constructor
  · intro hb
    rw [flattenKeySeedVisit_eq, flattenKeySeedVisit_eq]
    simp [classify, hb]
  · intro bs hb
    rw [flattenKeySeedVisit_eq]
    simp only [classify, hb]
    rcases h : cap.trySendKey s bs with ⟨_ | t, s'⟩ <;> simp [sendToCapture, h]

/-- A small concrete capture for witnesses: claims the key `[97]`, logs
every sent value. -/
def wCap : KeyCapture (List Nat) Unit Nat Unit where
  trySendKey := fun s bs => if bs = [97] then (some (), s) else (none, s)
  sendValue := fun s _ v => Except.ok (v :: s)

/-- A capture claiming nothing, for the capture-independence witness. -/
def wCap2 : KeyCapture (List Nat) Unit Nat Unit where
  trySendKey := fun s _ => (none, s)
  sendValue := fun s _ v => Except.ok (v :: s)

/-- A small concrete record for witnesses. -/
def wL : List (KeyData Nat × Nat) :=
  [(KeyData.kStr [97], 1), (KeyData.kBool true, 2), (KeyData.kStr [98], 3)]

theorem claim_C1_partition_witness :
    [(KeyData.kStr [97], (1 : Nat))].Sublist wL ∧
    [(KeyData.kBool true, (2 : Nat)), (KeyData.kStr [98], 3)].Sublist wL ∧
    ([(KeyData.kStr [97], (1 : Nat))] ++
      [(KeyData.kBool true, 2), (KeyData.kStr [98], 3)]).Perm wL ∧
    flattenVisitMap wCap (fun k => Except.ok k) (fun v => Except.ok v)
        wL.length wL [] =
      some (Except.ok ([(KeyData.kBool true, 2), (KeyData.kStr [98], 3)], [1])) :=
  claim_C1_partition wCap (fun k => k) (fun v => v) wL [] rfl

theorem claim_C2_inner_subsequence_witness :
    [(KeyData.kBool true, (2 : Nat)), (KeyData.kStr [98], 3)].Sublist wL ∧
    flattenVisitMap wCap (fun k => Except.ok k) (fun v => Except.ok v) 2 wL [] =
      some (Except.ok ([(KeyData.kBool true, 2), (KeyData.kStr [98], 3)], [1])) :=
  claim_C2_inner_subsequence wCap (fun k => k) (fun v => v) wL [] 2 rfl
    (by decide)

theorem claim_C3_drain_witness :
    flattenVisitMap wCap (fun k => Except.ok k) (fun v => Except.ok v) 0 wL [] =
      some (Except.ok ([], [1])) :=
  claim_C3_drain wCap (fun k => k) (fun v => v) wL [] rfl 0

theorem claim_C4_fused_witness :
    (⟨some ()⟩ : FusedAccess Unit).nextItem
        (fun _ => (Except.ok none : Except Unit (Option (Unit × Unit)))) =
      Except.ok (none, ⟨none⟩) :=
  claim_C4_fused.2.1 Unit Unit Unit () (fun _ => Except.ok none) rfl

theorem claim_C5_amended_witness :
    flattenDeserializerCall Shape.sBool = FlattenCall.mapWithFlattenVisitor :=
  claim_C5_amended Shape.sBool (by decide)

/-- The log produced by routing `wL` through the logging capture. -/
def wLog : List (CapEvent Unit Nat) :=
  [CapEvent.claimed () [97], CapEvent.sentValue () 1, CapEvent.keyRejected]

theorem claim_C6_protocol_witness :
    WellPaired wLog ∧ sentValues wLog = [1] ∧
    flattenVisitMap (logCapture wCap) (fun k => Except.ok k)
        (fun v => Except.ok v) 2 wL ([], []) =
      some (Except.ok ([(KeyData.kBool true, 2), (KeyData.kStr [98], 3)],
        ([1], wLog))) :=
  claim_C6_protocol wCap (fun k => k) (fun v => v) 2 wL [] rfl

/-- The interleaved record of the `one_field` test scenario. -/
def wL9 : List (KeyData JVal × JVal) :=
  [(KeyData.kStr (strBytes "_1"), JVal.jInt 1),
   (KeyData.kStr (strBytes "integer"), JVal.jInt 10),
   (KeyData.kStr (strBytes "_2"), JVal.jInt 2),
   (KeyData.kStr (strBytes "before"), JVal.jNum 105),
   (KeyData.kStr (strBytes "_3"), JVal.jInt 3),
   (KeyData.kStr (strBytes "string"), JVal.jStr (strBytes "hello")),
   (KeyData.kStr (strBytes "_4"), JVal.jInt 4),
   (KeyData.kStr (strBytes "after"), JVal.jBool true),
   (KeyData.kStr (strBytes "_5"), JVal.jInt 5)]

theorem claim_C9_reorder_witness :
    outerDecode wL9 = outerDecode wL9.reverse :=
  claim_C9_reorder (List.reverse_perm wL9).symm (by decide)

theorem claim_C10_key_shapes_witness :
    (flattenKeySeedVisit wCap (fun k => Except.ok k) [] (KeyData.kBool true) =
        sendToSeed (fun k => Except.ok k) [] (KeyData.kBool true) ∧
      flattenKeySeedVisit wCap (fun k => Except.ok k) [] (KeyData.kBool true) =
        flattenKeySeedVisit wCap2 (fun k => Except.ok k) [] (KeyData.kBool true)) ∧
    flattenKeySeedVisit wCap (fun k => Except.ok k) [] (KeyData.kStr [97]) =
      sendToCapture wCap (fun k => Except.ok k) [] (KeyData.kStr [97]) [97] :=
  ⟨(claim_C10_key_shapes wCap wCap2 (fun k => Except.ok k) []
      (KeyData.kBool true)).1 rfl,
   (claim_C10_key_shapes wCap wCap2 (fun k => Except.ok k) []
      (KeyData.kStr [97])).2 [97] rfl⟩

end SB
